import Mathlib

/-
  Shallow embedding of scrape_stocks.py (repository j-w-yun/scrape_stocks).

  Dates are represented as natural numbers: days since 1970-01-01.
  All dates handled by the program are after 1970 (the earliest defined
  date of the short-volume dataset is 2011-03-01), so Nat suffices and
  the civil-date conversion below is exact on that range.

  Conventions:
  - The external trading-holiday calendar (xone's USTradingCalendar) is an
    external collaborator; it is modelled as a Boolean predicate parameter
    `hol : Nat → Bool` (true on observed-holiday dates).
  - A Python exception is modelled as `Except.error` / `Option.none`.
  - pandas DataFrames appearing in REGSHO.download_data are modelled by a
    column list plus rows of optional cell values (None = NaN).
-/

set_option maxHeartbeats 1000000

namespace ScrapeStocks

/-! ## Calendar model -/

/-- Day of week of a day number (days since 1970-01-01), 0 = Sunday ...
    6 = Saturday.  1970-01-01 was a Thursday (= 4). -/
def dayOfWeek (d : Nat) : Nat := (d + 4) % 7

/-- Saturday or Sunday. -/
def isWeekend (d : Nat) : Bool := dayOfWeek d == 0 || dayOfWeek d == 6

/-- Convert a civil date (year, month, day) to days since 1970-01-01
    (Hinnant's days_from_civil, specialised to the post-1970 range the
    program uses, where all intermediate quantities are non-negative). -/
def daysFromCivil (y m d : Nat) : Nat :=
  let yAdj := if m ≤ 2 then y - 1 else y
  let era := yAdj / 400
  let yoe := yAdj - era * 400
  let mp := (m + 9) % 12
  let doy := (153 * mp + 2) / 5 + d - 1
  let doe := yoe * 365 + yoe / 4 - yoe / 100 + doy
  era * 146097 + doe - 719468

/-- pd.bdate_range(start, end): all Monday-Friday dates in [start, end]. -/
def bdate_range (s e : Nat) : List Nat :=
  (List.range' s (e + 1 - s)).filter (fun d => !isWeekend d)

/-- trading_dates (src/scrape_stocks.py lines 17-23): business dates in
    [start, end] with the fixed holiday calendar's dates removed.  The
    holiday calendar is the external USTradingCalendar, modelled as the
    predicate `hol`; its observed holidays always fall on weekdays, so
    pandas' Index.drop acts as a set difference, i.e. a filter. -/
def trading_dates (hol : Nat → Bool) (s e : Nat) : List Nat :=
  (bdate_range s e).filter (fun d => !hol d)

/-! ## Reading the last line of a store file (REGSHO.get_last_date, lines
    64-76, and STOCKS.get_last_date, lines 206-218) -/

/-- Split a character list at every newline; always returns one more piece
    than the number of newlines (helper for Python str.splitlines). -/
def splitNl : List Char → List (List Char)
  | [] => [[]]
  | c :: cs =>
    match splitNl cs with
    | [] => [[]]
    | p :: ps => if c = '\n' then [] :: p :: ps else (c :: p) :: ps

/-- Python str.splitlines for newline-terminated text: empty string gives
    no lines, and a trailing newline does not produce an extra empty line. -/
def splitlines (s : List Char) : List (List Char) :=
  if s.isEmpty then []
  else
    let ps := splitNl s
    if ps.getLast? = some [] then ps.dropLast else ps

/-- The tail read: f.seek(max(fsize-4096, 0)) then f.read().  Nat
    subtraction is exactly the max with 0. -/
def tailRead (content : List Char) : List Char :=
  content.drop (content.length - 4096)

/-- Common body of both get_last_date implementations: read the last 4096
    bytes, split lines, take the last line (IndexError = none when there
    are no lines), and take the text before the first delimiter
    (last_line.split(delimiter)[0]). -/
def lastLineField (content : List Char) : Option (List Char) :=
  ((splitlines (tailRead content)).getLast?).map
    (fun l => l.takeWhile (fun c => c ≠ '|'))

/-- Numeric value of a digit string. -/
def digitsToNat (l : List Char) : Nat :=
  l.foldl (fun a c => a * 10 + (c.toNat - 48)) 0

def isLeapYear (y : Nat) : Bool :=
  (y % 4 == 0 && y % 100 != 0) || y % 400 == 0

def daysInMonth (y m : Nat) : Nat :=
  if m = 2 then (if isLeapYear y then 29 else 28)
  else if m = 4 ∨ m = 6 ∨ m = 9 ∨ m = 11 then 30
  else 31

/-- datetime.strptime(s, '%Y%m%d') on a canonical 8-digit date string,
    yielding the day number; none models the ValueError raise. -/
def parseYmd8 (l : List Char) : Option Nat :=
  if l.length = 8 ∧ l.all Char.isDigit then
    let y := digitsToNat (l.take 4)
    let m := digitsToNat ((l.drop 4).take 2)
    let d := digitsToNat (l.drop 6)
    if 1 ≤ m ∧ m ≤ 12 ∧ 1 ≤ d ∧ d ≤ daysInMonth y m then
      some (daysFromCivil y m d)
    else none
  else none

/-- datetime.strptime(s, '%Y-%m-%d') on a canonical YYYY-MM-DD string. -/
def parseIso (l : List Char) : Option Nat :=
  match l with
  | [y1, y2, y3, y4, s1, m1, m2, s2, d1, d2] =>
    if ([y1, y2, y3, y4, m1, m2, d1, d2].all Char.isDigit) ∧ s1 = '-' ∧ s2 = '-' then
      let y := digitsToNat [y1, y2, y3, y4]
      let m := digitsToNat [m1, m2]
      let d := digitsToNat [d1, d2]
      if 1 ≤ m ∧ m ≤ 12 ∧ 1 ≤ d ∧ d ≤ daysInMonth y m then
        some (daysFromCivil y m d)
      else none
    else none
  | _ => none

namespace REGSHO

/-- REGSHO.get_last_date (lines 64-76): date of the literal last line of
    the store file, parsed with '%Y%m%d'.  The argument is the file's
    content; none models an uncaught exception (IndexError on a file with
    no lines, ValueError on an unparsable date field). -/
def get_last_date (content : List Char) : Option Nat :=
  (lastLineField content).bind parseYmd8

end REGSHO

namespace STOCKS

/-- STOCKS.get_last_date (lines 206-218): same tail read, date format
    '%Y-%m-%d'. -/
def get_last_date (content : List Char) : Option Nat :=
  (lastLineField content).bind parseIso

end STOCKS

/-! ## STOCKS.sanitize and the metadata record write
    (lines 198-204 and 252-261) -/

/-- The whitespace characters of Python str.split(). -/
def isSpaceChar (c : Char) : Bool :=
  c == ' ' || c == '\t' || c == '\n' || c == '\r' || c == '\x0b' || c == '\x0c'

/-- Helper for Python s.split(): walk the string holding the reversed
    current token. -/
def splitWsAux (cur : List Char) : List Char → List (List Char)
  | [] => if cur.isEmpty then [] else [cur.reverse]
  | c :: cs =>
    if isSpaceChar c then
      if cur.isEmpty then splitWsAux [] cs else cur.reverse :: splitWsAux [] cs
    else splitWsAux (c :: cur) cs

/-- Python s.split(): maximal runs of non-whitespace characters (the
    equations splitWs_nil and splitWs_cons below give the direct
    maximal-run characterization). -/
def splitWs (s : List Char) : List (List Char) := splitWsAux [] s

/-- Python ' '.join(tokens). -/
def joinSp : List (List Char) → List Char
  | [] => []
  | t :: ts =>
    match ts with
    | [] => t
    | _ :: _ => t ++ ' ' :: joinSp ts

/-- One step of res.replace('|', ','): the store delimiter is a single
    character, so the replace is a character map. -/
def replaceDelim (c : Char) : Char := if c == '|' then ',' else c

namespace STOCKS

/-- STOCKS.sanitize (lines 198-204): replace the delimiter with a comma,
    then collapse whitespace via ' '.join(s.split()). -/
def sanitize (s : List Char) : List Char :=
  joinSp (splitWs (s.map replaceDelim))

end STOCKS

/-- The fixed recognized metadata column set (ticker_fieldnames,
    lines 172-196). -/
def ticker_fieldnames : List String :=
  ["symbol", "longName", "shortName", "industry", "sector", "phone",
   "website", "logo_url", "tradeable", "companyOfficers", "isEsgPopulated",
   "quoteType", "currency", "market", "exchange", "exchangeTimezoneName",
   "exchangeTimezoneShortName", "address1", "city", "state", "zip",
   "country", "longBusinessSummary"]

/-- The pre-write transform of one fetched ticker-info dict
    (download_symbols, lines 252-261): read info['longBusinessSummary']
    (KeyError = none, caught and turned into a skip by the bare except),
    overwrite that key with its sanitized value, leave every other key
    untouched. -/
def prepareInfo (info : List (String × List Char)) :
    Option (List (String × List Char)) :=
  match List.lookup "longBusinessSummary" info with
  | none => none
  | some v =>
    some (info.map (fun kv =>
      if kv.1 = "longBusinessSummary" then (kv.1, STOCKS.sanitize v) else kv))

/-- csv.DictWriter.writerow with extrasaction='ignore': the written record
    is the values of the fixed recognized columns, in fieldnames order
    (missing keys produce an empty cell via restval). -/
def rowFor (info : List (String × List Char)) : List (List Char) :=
  ticker_fieldnames.map (fun k => (List.lookup k info).getD [])

/-! ## REGSHO dataframe model and download_data (lines 84-106) -/

/-- A parsed pandas DataFrame: named columns and rows of optional cells
    (none = NaN). -/
structure DF where
  cols : List String
  rows : List (List (Option String))
deriving DecidableEq

/-- datum.dropna(): keep only rows with no missing cell. -/
def dropna (df : DF) : DF :=
  ⟨df.cols, df.rows.filter (fun r => r.all Option.isSome)⟩

/-- Column union in order of first appearance (pd.concat with sort=False). -/
def unionCols (l : List (List String)) : List String :=
  l.foldl (fun acc cs => acc ++ cs.filter (fun c => !acc.contains c)) []

/-- Reindex one row from its own column list onto a target column list;
    columns the row does not have become NaN. -/
def reindexRow (cols target : List String) (r : List (Option String)) :
    List (Option String) :=
  target.map (fun c =>
    match cols.indexOf? c with
    | some i => r.getD i none
    | none => none)

/-- pd.concat(data) over axis 0: union of the columns, all rows reindexed. -/
def concatDF (dfs : List DF) : DF :=
  let cols := unionCols (dfs.map DF.cols)
  ⟨cols, dfs.foldr (fun df acc => df.rows.map (reindexRow df.cols cols) ++ acc) []⟩

/-- data[fieldnames]: column selection / reorder. -/
def selectCols (target : List String) (df : DF) : DF :=
  ⟨target, df.rows.map (reindexRow df.cols target)⟩

/-- The six required fields (REGSHO.fieldnames, lines 43-50). -/
def fieldnames : List String :=
  ["Date", "Symbol", "ShortVolume", "ShortExemptVolume", "TotalVolume", "Market"]

/-- Result of fetching and parsing one venue partition's URL for one date:
    fail models any exception raised by requests.get or pd.read_csv. -/
inductive PartFetch where
  | fail : PartFetch
  | ok : DF → PartFetch
deriving DecidableEq

/-- The fetch-and-parse loop over the three venue-partition URLs
    (lines 87-93): each successfully parsed partition is dropna'd and
    collected; the first raised exception aborts the loop (there is no
    try/except in REGSHO.download_data). -/
def collectParts : List PartFetch → Option (List DF)
  | [] => some []
  | PartFetch.fail :: _ => none
  | PartFetch.ok df :: rest => (collectParts rest).map (fun l => dropna df :: l)

/-- One store row as written: the six selected cells. -/
abbrev RegRow := List (Option String)

/-- Outcome of running a piece of Python code: raise models an uncaught
    exception escaping it, done carries the normal result. -/
inductive RegResult (σ : Type) where
  | raise : RegResult σ
  | done : σ → RegResult σ
deriving DecidableEq

/-- REGSHO.download_data (lines 84-106), as a function of the per-partition
    fetch results for the requested date and of the current store rows.
    RegResult.raise models an exception escaping download_data; Option.none
    in the payload is the `return None` closed-market case. -/
def download_data (parts : List PartFetch) (store : List RegRow) :
    RegResult (Option DF × List RegRow) :=
  match collectParts parts with
  | none => RegResult.raise
  | some dfs =>
    let data := concatDF dfs
    if fieldnames.all (fun c => data.cols.contains c) then
      let sel := selectCols fieldnames data
      RegResult.done (some sel, store ++ sel.rows)
    else RegResult.done (none, store)

/-- A date whose (successfully fetched) concatenated partitions are missing
    at least one required field: the market-closed signal. -/
def closedFeed (parts : List PartFetch) : Bool :=
  match collectParts parts with
  | none => false
  | some dfs => !(fieldnames.all (fun c => (concatDF dfs).cols.contains c))

/-- datetime.now(timezone('US/Eastern')) reduced to what update uses:
    the Eastern calendar day and hour. -/
structure EasternNow where
  day : Nat
  hour : Nat

/-- Start date of REGSHO.update (lines 109-115): '3/1/2011', overwritten
    with last stored date + 1 day when the store file exists.  The
    strftime/strptime round trips through '%m/%d/%Y' strings are identities
    on dates and are elided. -/
def regshoStart (fileExists : Bool) (lastLineDate : Nat) : Nat :=
  let start0 := daysFromCivil 2011 3 1
  if fileExists then lastLineDate + 1 else start0

/-- End date of REGSHO.update (lines 117-122): today in US/Eastern, moved
    back one day when the hour is before the 8 PM publication cutoff. -/
def regshoEnd (now : EasternNow) : Nat :=
  if now.hour < 20 then now.day - 1 else now.day

/-- The candidate dates of one REGSHO.update run (line 125). -/
def regshoCandidates (hol : Nat → Bool) (fileExists : Bool)
    (lastLineDate : Nat) (now : EasternNow) : List Nat :=
  trading_dates hol (regshoStart fileExists lastLineDate) (regshoEnd now)

/-- The per-date loop of REGSHO.update (lines 127-134): download each date
    in order; an exception raised inside download_data aborts the loop. -/
def regshoLoop (feed : Nat → List PartFetch) :
    List Nat → List RegRow → RegResult (List RegRow)
  | [], store => RegResult.done store
  | d :: ds, store =>
    match download_data (feed d) store with
    | RegResult.raise => RegResult.raise
    | RegResult.done (_, store2) => regshoLoop feed ds store2

namespace REGSHO

/-- REGSHO.update (lines 108-135) over the embedding: the store-file state
    is (fileExists, lastLineDate, store rows); feed gives each date's
    partition fetch results. -/
def update (hol : Nat → Bool) (feed : Nat → List PartFetch)
    (fileExists : Bool) (lastLineDate : Nat) (now : EasternNow)
    (store : List RegRow) : RegResult (List RegRow) :=
  regshoLoop feed (regshoCandidates hol fileExists lastLineDate now) store

end REGSHO

/-- The claim's (and spec's) statement of the effective start: the fixed
    earliest date 2011-03-01 when the store file does not exist, else the
    final line's date plus one day.  Stated from the spec's words, to be
    compared with regshoStart. -/
def specStart (fileExists : Bool) (lastLineDate : Nat) : Nat :=
  if fileExists = false then daysFromCivil 2011 3 1 else lastLineDate + 1

/-- The claim's statement of the effective end: today in Eastern time,
    shifted back one day exactly when the Eastern hour is before 20.
    Stated from the spec's words, to be compared with regshoEnd. -/
def specEnd (now : EasternNow) : Nat :=
  now.day - (if now.hour < 20 then 1 else 0)

/-! ## STOCKS merge model (STOCKS.update, lines 263-321) -/

/-- One row of the short-volume store for one symbol (the frame
    short_data after the Symbol filter of line 273). -/
structure SVRow where
  date : Nat
  market : String
  sv : Nat
  sev : Nat
  tv : Nat
deriving DecidableEq

/-- The three summed columns of the groupby (line 310). -/
structure Agg where
  sv : Nat
  sev : Nat
  tv : Nat
deriving DecidableEq

def toAgg (r : SVRow) : Agg := ⟨r.sv, r.sev, r.tv⟩

def addAgg (a b : Agg) : Agg := ⟨a.sv + b.sv, a.sev + b.sev, a.tv + b.tv⟩

/-- Insert one row's figures into a date-sorted aggregation list, summing
    into an existing date's entry. -/
def insertAdd (d : Nat) (a : Agg) : List (Nat × Agg) → List (Nat × Agg)
  | [] => [(d, a)]
  | (d2, b) :: t =>
    if d < d2 then (d, a) :: (d2, b) :: t
    else if d = d2 then (d2, addAgg b a) :: t
    else (d2, b) :: insertAdd d a t

/-- short_data.groupby('Date')[['ShortVolume','ShortExemptVolume',
    'TotalVolume']].sum() (line 310): per-date sums across Market, keyed
    by Date ascending (pandas groupby sorts group keys). -/
def groupSum (rows : List SVRow) : List (Nat × Agg) :=
  rows.foldr (fun r acc => insertAdd r.date (toAgg r) acc) []

/-- pd.concat([data, short_data], axis=1) on two date-indexed frames:
    the index becomes the sorted union of the two indexes and each side's
    values are attached where present (outer join).  Payload types are
    abstract: α is a price bar, γ an aggregate. -/
def alignOuter {α γ : Type} :
    List (Nat × α) → List (Nat × γ) → List (Nat × (Option α × Option γ))
  | [], ys => ys.map (fun p => (p.1, (none, some p.2)))
  | (d1, b) :: xs, ys =>
    let below := ys.takeWhile (fun p => p.1 < d1)
    let rest := ys.dropWhile (fun p => p.1 < d1)
    below.map (fun p => (p.1, (none, some p.2))) ++
      match rest with
      | [] => (d1, (some b, none)) :: alignOuter xs []
      | (d2, c) :: ys2 =>
        if d2 = d1 then (d1, (some b, some c)) :: alignOuter xs ys2
        else (d1, (some b, none)) :: alignOuter xs ((d2, c) :: ys2)

/-- data[~data.index.duplicated(keep='first')] (line 316): keep a row iff
    its date has not appeared earlier. -/
def dupGo {β : Type} (seen : List Nat) : List (Nat × β) → List (Nat × β)
  | [] => []
  | (d, x) :: t =>
    if seen.contains d then dupGo seen t else (d, x) :: dupGo (d :: seen) t

def dedupKeepFirst {β : Type} (rows : List (Nat × β)) : List (Nat × β) :=
  dupGo [] rows

/-- The merge block of STOCKS.update (lines 307-316) for one symbol, with
    nonempty fetched bars (an empty fetch raises IndexError inside the try
    at line 302 and never reaches the merge): group the symbol's
    short-volume rows by date, restrict them to the inclusive span of the
    fetched bar dates (data.index[0] .. data.index[-1]), concat-align with
    the bars, then drop duplicate indices keeping the first occurrence. -/
def stocksMerge {α : Type} (b0 : Nat × α) (rest : List (Nat × α))
    (svrows : List SVRow) : List (Nat × (Option α × Option Agg)) :=
  let bars := b0 :: rest
  let lo := b0.1
  let hi := (bars.getLastD b0).1
  let grouped := groupSum svrows
  let restricted := (grouped.filter (fun p => lo ≤ p.1)).filter (fun p => p.1 ≤ hi)
  dedupKeepFirst (alignOuter bars restricted)

/-- Result of the yf.download call for one symbol: fail models any
    exception inside the try of lines 277-305 (including an empty result,
    which raises IndexError at the line-302 print). -/
inductive Fetch (α : Type) where
  | fail : Fetch α
  | ok : List (Nat × α) → Fetch α
deriving DecidableEq

/-- One iteration of the per-symbol loop of STOCKS.update (lines 266-320)
    acting on that symbol's history store, with the store represented by
    its rows (fileExists = store nonempty), svEnd the symbol's last
    short-volume date plus one day (line 275), fetch the quotes provider's
    response and svrows the symbol's short-volume rows. -/
def stocksStep {α : Type} (hol : Nat → Bool) (svEnd : Nat)
    (store : List (Nat × (Option α × Option Agg))) (fetch : Fetch α)
    (svrows : List SVRow) : List (Nat × (Option α × Option Agg)) :=
  match store with
  | [] =>
    match fetch with
    | Fetch.fail => []
    | Fetch.ok [] => []
    | Fetch.ok (b :: bs) => stocksMerge b bs svrows
  | s0 :: srest =>
    let lastDate := ((s0 :: srest).getLastD s0).1
    let dates := trading_dates hol (lastDate + 1) svEnd
    if dates.isEmpty then s0 :: srest
    else
      match fetch with
      | Fetch.fail => s0 :: srest
      | Fetch.ok [] => s0 :: srest
      | Fetch.ok (b :: bs) => (s0 :: srest) ++ stocksMerge b bs svrows

/-- One run's inputs for one symbol: the provider response, the symbol's
    short-volume rows, and the derived svEnd. -/
abbrev Run (α : Type) := Fetch α × List SVRow × Nat

def stepRun {α : Type} (hol : Nat → Bool)
    (store : List (Nat × (Option α × Option Agg))) (r : Run α) :
    List (Nat × (Option α × Option Agg)) :=
  stocksStep hol r.2.2 store r.1 r.2.1

/-- Boolean strict ascending check. -/
def sortedLt : List Nat → Bool
  | [] => true
  | [_] => true
  | a :: b :: t => decide (a < b) && sortedLt (b :: t)

/-- The quotes-provider interface contract (spec section 6) for one run,
    relative to the store state at that run: bars come back in strictly
    chronological order, and every bar date is within the requested range,
    hence strictly after every date already stored (the requested start is
    the stored last date plus one day, or the symbol's first short-volume
    date when the store is empty). -/
def contractOK {α : Type} (store : List (Nat × (Option α × Option Agg)))
    (r : Run α) : Bool :=
  match r.1 with
  | Fetch.fail => true
  | Fetch.ok bars =>
    sortedLt (bars.map Prod.fst) &&
      store.all (fun p => bars.all (fun b => decide (p.1 < b.1)))

/-- All runs in sequence satisfy the provider contract at their moment of
    execution. -/
def validRuns {α : Type} (hol : Nat → Bool)
    (store : List (Nat × (Option α × Option Agg))) : List (Run α) → Bool
  | [] => true
  | r :: rs => contractOK store r && validRuns hol (stepRun hol store r) rs

/-- Folding any number of per-symbol runs over a store. -/
def runsFold {α : Type} (hol : Nat → Bool)
    (store : List (Nat × (Option α × Option Agg))) : List (Run α) →
    List (Nat × (Option α × Option Agg))
  | [] => store
  | r :: rs => runsFold hol (stepRun hol store r) rs

/-! ## Supporting lemmas: the calendar service -/

theorem mem_bdate_range {s e d : Nat} :
    d ∈ bdate_range s e ↔ s ≤ d ∧ d ≤ e ∧ isWeekend d = false := by
  unfold bdate_range
  rw [List.mem_filter, List.mem_range'_1]
  constructor
  · rintro ⟨⟨h1, h2⟩, h3⟩
    exact ⟨h1, by omega, by simpa using h3⟩
  · rintro ⟨h1, h2, h3⟩
    exact ⟨⟨h1, by omega⟩, by simp [h3]⟩

theorem mem_trading_dates {hol : Nat → Bool} {s e d : Nat} :
    d ∈ trading_dates hol s e ↔
      s ≤ d ∧ d ≤ e ∧ isWeekend d = false ∧ hol d = false := by
  unfold trading_dates
  rw [List.mem_filter, mem_bdate_range]
  simp [and_assoc]

theorem trading_dates_pairwise (hol : Nat → Bool) (s e : Nat) :
    (trading_dates hol s e).Pairwise (· < ·) :=
  List.Pairwise.filter _ (List.Pairwise.filter _ (List.pairwise_lt_range' s (e + 1 - s)))

/-! ## Claim C8 -/

/-- C8: for every pair of dates (start, end), trading_dates returns an
    ascending sequence whose members are exactly the dates of the closed
    range [start, end] that are neither Saturdays, Sundays nor dates of the
    fixed holiday calendar (so each endpoint appears exactly when it is a
    trading day); the result is a pure function of (start, end); and when
    start > end the result is empty rather than an error (and likewise it
    is empty when the range has no trading day, by the membership
    characterization). -/
theorem claim_C8 (hol : Nat → Bool) (s e : Nat) :
    (trading_dates hol s e).Pairwise (· < ·) ∧
    (∀ d, d ∈ trading_dates hol s e ↔
        s ≤ d ∧ d ≤ e ∧ isWeekend d = false ∧ hol d = false) ∧
    (e < s → trading_dates hol s e = []) := by
  refine ⟨trading_dates_pairwise hol s e, fun d => mem_trading_dates, ?_⟩
  intro h
  cases h2 : trading_dates hol s e with
  | nil => rfl
  | cons a t =>
    have ha := mem_trading_dates.1 (h2 ▸ List.mem_cons_self a t)
    omega

theorem claim_C8_witness :
    (19510 ∈ trading_dates (fun _ => false) 19509 19513) ∧
    trading_dates (fun _ => false) 5 4 = [] :=
  ⟨((claim_C8 (fun _ => false) 19509 19513).2.1 19510).2 (by decide),
   (claim_C8 (fun _ => false) 5 4).2.2 (by decide)⟩

/-! ## Claim C7 -/

/-- C7: the Short-Volume Synchronizer's effective fetch range: start is
    the dataset's fixed earliest date 2011-03-01 (day number 15034) when
    the store file does not exist, else the final line's date plus one
    day; end is today in US/Eastern, shifted back one day exactly when the
    Eastern hour is before the 8 PM cutoff; and the candidate dates are
    the calendar service's trading dates over that closed range.
    specStart/specEnd are stated from the claim's words, regshoStart,
    regshoEnd and regshoCandidates from the code. -/
theorem claim_C7 (hol : Nat → Bool) (fe : Bool) (ld : Nat) (now : EasternNow) :
    regshoCandidates hol fe ld now
      = trading_dates hol (specStart fe ld) (specEnd now) ∧
    regshoStart false ld = daysFromCivil 2011 3 1 ∧
    daysFromCivil 2011 3 1 = 15034 ∧
    (∀ d, d ∈ regshoCandidates hol fe ld now ↔
      specStart fe ld ≤ d ∧ d ≤ specEnd now ∧
        isWeekend d = false ∧ hol d = false) := by
  have hstart : regshoStart fe ld = specStart fe ld := by
    cases fe <;> simp [regshoStart, specStart]
  have hend : regshoEnd now = specEnd now := by
    unfold regshoEnd specEnd
    split <;> omega
  have h34 : daysFromCivil 2011 3 1 = 15034 := rfl
  refine ⟨?_, by rw [h34]; rfl, h34, ?_⟩
  · unfold regshoCandidates
    rw [hstart, hend]
  · intro d
    unfold regshoCandidates
    rw [hstart, hend]
    exact mem_trading_dates

theorem claim_C7_witness :
    regshoCandidates (fun _ => false) true 19509 ⟨19510, 21⟩
      = trading_dates (fun _ => false) 19510 19510 ∧
    (19510 ∈ regshoCandidates (fun _ => false) true 19509 ⟨19510, 21⟩) :=
  ⟨(claim_C7 (fun _ => false) true 19509 ⟨19510, 21⟩).1,
   ((claim_C7 (fun _ => false) true 19509 ⟨19510, 21⟩).2.2.2 19510).2 (by decide)⟩

/-! ## Supporting lemmas: splitlines and the tail read -/

theorem splitNl_ne_nil (l : List Char) : splitNl l ≠ [] := by
  cases l with
  | nil => simp [splitNl]
  | cons c cs =>
    cases h : splitNl cs with
    | nil => simp [splitNl, h]
    | cons p ps =>
      by_cases hc : c = '\n' <;> simp [splitNl, h, hc]

theorem splitNl_no_nl {l : List Char} (h : '\n' ∉ l) : splitNl l = [l] := by
  induction l with
  | nil => rfl
  | cons c cs ih =>
    have hc : ¬(c = '\n') := fun e => h (by simp [e])
    have hcs : '\n' ∉ cs := fun m => h (List.mem_cons_of_mem _ m)
    simp [splitNl, ih hcs, hc]

theorem splitNl_length (l : List Char) :
    (splitNl l).length = l.count '\n' + 1 := by
  induction l with
  | nil => rfl
  | cons c cs ih =>
    cases h : splitNl cs with
    | nil => exact absurd h (splitNl_ne_nil cs)
    | cons p ps =>
      rw [h] at ih
      simp only [List.length_cons] at ih
      by_cases hc : c = '\n' <;>
        simp [splitNl, h, hc, List.count_cons] <;> omega

theorem splitNl_append_nl (x : List Char) :
    splitNl (x ++ ['\n']) = splitNl x ++ [[]] := by
  induction x with
  | nil => rfl
  | cons c cs ih =>
    cases h : splitNl cs with
    | nil => exact absurd h (splitNl_ne_nil cs)
    | cons p ps =>
      rw [h] at ih
      by_cases hc : c = '\n' <;>
        simp [splitNl, h, ih, hc]

theorem getLast_splitNl {l : List Char} (a : List Char) (h : '\n' ∉ l) :
    (splitNl (a ++ '\n' :: l)).getLast? = some l := by
  induction a with
  | nil => simp [splitNl, splitNl_no_nl h]
  | cons c cs ih =>
    cases h2 : splitNl (cs ++ '\n' :: l) with
    | nil => exact absurd h2 (splitNl_ne_nil _)
    | cons p ps =>
      rw [h2] at ih
      have hps : ps ≠ [] := by
        intro e
        have hlen := splitNl_length (cs ++ '\n' :: l)
        rw [h2, e] at hlen
        simp only [List.length_cons, List.length_nil] at hlen
        have hmem : '\n' ∈ cs ++ '\n' :: l := by simp
        have hzero : (cs ++ '\n' :: l).count '\n' = 0 := by omega
        exact (List.count_eq_zero.mp hzero) hmem
      cases ps with
      | nil => exact absurd rfl hps
      | cons q qs =>
        have ih2 : (q :: qs).getLast? = some l := by
          rw [List.getLast?_cons_cons] at ih
          exact ih
        by_cases hc : c = '\n' <;>
          simp [splitNl, h2, hc, List.getLast?_cons_cons, ih2]

theorem splitlines_append_nl (x : List Char) :
    splitlines (x ++ ['\n']) = splitNl x := by
  unfold splitlines
  rw [if_neg (by simp), splitNl_append_nl, if_pos (by simp), List.dropLast_concat]

theorem getLast_splitlines_no_pre {l : List Char} (hnl : '\n' ∉ l) :
    (splitlines (l ++ ['\n'])).getLast? = some l := by
  rw [splitlines_append_nl, splitNl_no_nl hnl]
  rfl

theorem getLast_splitlines_pre {l : List Char} (b : List Char) (hnl : '\n' ∉ l) :
    (splitlines ((b ++ ['\n']) ++ (l ++ ['\n']))).getLast? = some l := by
  have harr : (b ++ ['\n']) ++ (l ++ ['\n']) = (b ++ '\n' :: l) ++ ['\n'] := by simp
  rw [harr, splitlines_append_nl]
  exact getLast_splitNl b hnl

/-- The structural fact behind both get_last_date implementations: when the
    content ends with a newline-terminated final line that fits (with its
    newline) in the last 4096 bytes, the tail read and split yield exactly
    that final line's first pipe-delimited field. -/
theorem lastLineField_last (pre l : List Char) (hnl : '\n' ∉ l)
    (hpre : pre = [] ∨ ∃ b, pre = b ++ ['\n'])
    (hlen : l.length + 1 ≤ 4096) :
    lastLineField (pre ++ (l ++ ['\n']))
      = some (l.takeWhile (fun c => c ≠ '|')) := by
  unfold lastLineField tailRead
  have hk_le : (pre ++ (l ++ ['\n'])).length - 4096 ≤ pre.length := by
    simp only [List.length_append, List.length_cons, List.length_nil]
    omega
  rw [List.drop_append_of_le_length hk_le]
  rcases hpre with h | ⟨b, h⟩
  · subst h
    simp only [List.drop_nil, List.nil_append]
    rw [getLast_splitlines_no_pre hnl]
    rfl
  · subst h
    by_cases hc : (b ++ ['\n'] ++ (l ++ ['\n'])).length - 4096 ≤ b.length
    · rw [List.drop_append_of_le_length hc,
        getLast_splitlines_pre (b.drop ((b ++ ['\n'] ++ (l ++ ['\n'])).length - 4096)) hnl]
      rfl
    · rw [List.drop_eq_nil_of_le (by simp only [List.length_append,
        List.length_cons, List.length_nil] at hc ⊢; omega)]
      simp only [List.nil_append]
      rw [getLast_splitlines_no_pre hnl]
      rfl

/-! ## Claim C10 -/

/-- C10: for a store file whose final line (with its terminating newline)
    lies within the last 4096 bytes and whose first pipe-delimited field is
    a well-formed date, get_last_date returns exactly the date of the
    literal last line — regardless of what precedes it, hence regardless of
    gaps in the stored date sequence (first conjunct for the REGSHO store's
    '%Y%m%d' format, second for the STOCKS store's '%Y-%m-%d' format); and
    on an existing file with zero lines (empty content) both
    implementations hit IndexError (modelled as none) rather than
    returning a value. -/
theorem claim_C10 :
    (∀ pre l d, '\n' ∉ l → (pre = [] ∨ ∃ b, pre = b ++ ['\n']) →
        l.length + 1 ≤ 4096 →
        parseYmd8 (l.takeWhile (fun c => c ≠ '|')) = some d →
        REGSHO.get_last_date (pre ++ (l ++ ['\n'])) = some d) ∧
    (∀ pre l d, '\n' ∉ l → (pre = [] ∨ ∃ b, pre = b ++ ['\n']) →
        l.length + 1 ≤ 4096 →
        parseIso (l.takeWhile (fun c => c ≠ '|')) = some d →
        STOCKS.get_last_date (pre ++ (l ++ ['\n'])) = some d) ∧
    REGSHO.get_last_date [] = none ∧
    STOCKS.get_last_date [] = none := by
  refine ⟨?_, ?_, rfl, rfl⟩
  · intro pre l d hnl hpre hlen hparse
    unfold REGSHO.get_last_date
    rw [lastLineField_last pre l hnl hpre hlen]
    simpa using hparse
  · intro pre l d hnl hpre hlen hparse
    unfold STOCKS.get_last_date
    rw [lastLineField_last pre l hnl hpre hlen]
    simpa using hparse

theorem claim_C10_witness :
    REGSHO.get_last_date
      (("20230601|A|1|0|2|N".toList ++ ['\n'])
        ++ ("20230602|A|3|0|4|N".toList ++ ['\n'])) = some 19510 :=
  claim_C10.1 ("20230601|A|1|0|2|N".toList ++ ['\n'])
    "20230602|A|3|0|4|N".toList 19510
    (by decide) (Or.inr ⟨_, rfl⟩) (by decide) (by rfl)

/-! ## Supporting lemmas: sanitize -/

theorem takeWhile_append_all {p : Char → Bool} {l r : List Char}
    (h : ∀ x ∈ l, p x = true) : (l ++ r).takeWhile p = l ++ r.takeWhile p := by
  induction l with
  | nil => simp
  | cons c cs ih =>
    have hcs : ∀ x ∈ cs, p x = true := fun x hx => h x (by simp [hx])
    simp [List.takeWhile_cons, h c (by simp), ih hcs]

theorem dropWhile_append_all {p : Char → Bool} {l r : List Char}
    (h : ∀ x ∈ l, p x = true) : (l ++ r).dropWhile p = r.dropWhile p := by
  induction l with
  | nil => simp
  | cons c cs ih =>
    have hcs : ∀ x ∈ cs, p x = true := fun x hx => h x (by simp [hx])
    simp [List.dropWhile_cons, h c (by simp), ih hcs]

theorem splitWsAux_ne (cs : List Char) : ∀ cur, cur ≠ [] →
    splitWsAux cur cs
      = (cur.reverse ++ cs.takeWhile (fun x => !isSpaceChar x))
          :: splitWsAux [] (cs.dropWhile (fun x => !isSpaceChar x)) := by
  induction cs with
  | nil =>
    intro cur hc
    simp [splitWsAux, hc]
  | cons c cs ih =>
    intro cur hc
    by_cases hsp : isSpaceChar c
    · simp [splitWsAux, hc, hsp, List.takeWhile_cons, List.dropWhile_cons]
    · rw [show splitWsAux cur (c :: cs) = splitWsAux (c :: cur) cs from by
        simp [splitWsAux, hsp]]
      rw [ih (c :: cur) (by simp)]
      simp [List.takeWhile_cons, List.dropWhile_cons, hsp]

theorem splitWs_nil : splitWs [] = [] := rfl

theorem splitWs_cons (c : Char) (cs : List Char) :
    splitWs (c :: cs) = if isSpaceChar c then splitWs cs
      else (c :: cs.takeWhile (fun x => !isSpaceChar x))
             :: splitWs (cs.dropWhile (fun x => !isSpaceChar x)) := by
  by_cases hsp : isSpaceChar c
  · simp [splitWs, splitWsAux, hsp]
  · rw [if_neg hsp]
    show splitWsAux [] (c :: cs) = _
    rw [show splitWsAux [] (c :: cs) = splitWsAux [c] cs from by
      simp [splitWsAux, hsp]]
    rw [splitWsAux_ne cs [c] (by simp)]
    rfl

theorem splitWs_mem (s : List Char) :
    ∀ t ∈ splitWs s, t ≠ [] ∧ ∀ c2 ∈ t, isSpaceChar c2 = false ∧ c2 ∈ s := by
  have main : ∀ n (s : List Char), s.length ≤ n →
      ∀ t ∈ splitWs s, t ≠ [] ∧ ∀ c2 ∈ t, isSpaceChar c2 = false ∧ c2 ∈ s := by
    intro n
    induction n with
    | zero =>
      intro s hs
      rw [List.length_eq_zero.mp (Nat.le_zero.mp hs)]
      simp [splitWs_nil]
    | succ n ih =>
      intro s hs t ht
      cases s with
      | nil => simp [splitWs_nil] at ht
      | cons c cs =>
        rw [splitWs_cons] at ht
        by_cases hsp : isSpaceChar c
        · rw [if_pos hsp] at ht
          obtain ⟨h1, h2⟩ := ih cs (by simp at hs; omega) t ht
          exact ⟨h1, fun c2 hc2 =>
            ⟨(h2 c2 hc2).1, List.mem_cons_of_mem _ (h2 c2 hc2).2⟩⟩
        · rw [if_neg hsp] at ht
          have hsp2 : isSpaceChar c = false := by simpa using hsp
          rcases List.mem_cons.1 ht with h | h
          · subst h
            refine ⟨by simp, fun c2 hc2 => ?_⟩
            rcases List.mem_cons.1 hc2 with h2 | h2
            · exact ⟨h2 ▸ hsp2, by simp [h2]⟩
            · have hp := List.mem_takeWhile_imp h2
              have hm := (List.takeWhile_sublist _).subset h2
              exact ⟨by simpa using hp, List.mem_cons_of_mem _ hm⟩
          · have hlen : (cs.dropWhile (fun x => !isSpaceChar x)).length ≤ n := by
              have := (List.dropWhile_sublist
                (fun x => !isSpaceChar x) (l := cs)).length_le
              simp at hs
              omega
            obtain ⟨h1, h2⟩ := ih _ hlen t h
            exact ⟨h1, fun c2 hc2 =>
              ⟨(h2 c2 hc2).1,
               List.mem_cons_of_mem _
                 ((List.dropWhile_sublist _).subset (h2 c2 hc2).2)⟩⟩
  exact main s.length s (Nat.le_refl _)

theorem splitWs_no_ws {t : List Char} (hne : t ≠ [])
    (hws : ∀ c ∈ t, isSpaceChar c = false) : splitWs t = [t] := by
  cases t with
  | nil => exact absurd rfl hne
  | cons c cs =>
    have h1 : isSpaceChar c = false := hws c (by simp)
    have h2 : cs.takeWhile (fun x => !isSpaceChar x) = cs :=
      List.takeWhile_eq_self_iff.mpr (fun x hx => by simp [hws x (by simp [hx])])
    have h3 : cs.dropWhile (fun x => !isSpaceChar x) = [] :=
      List.dropWhile_eq_nil_iff.mpr (fun x hx => by simp [hws x (by simp [hx])])
    simp [splitWs_cons, splitWs_nil, h1, h2, h3]

theorem splitWs_sp_cons (r : List Char) : splitWs (' ' :: r) = splitWs r := by
  simp [splitWs_cons, isSpaceChar]

theorem splitWs_token_append {t r : List Char} (hne : t ≠ [])
    (hws : ∀ c ∈ t, isSpaceChar c = false) :
    splitWs (t ++ ' ' :: r) = t :: splitWs r := by
  cases t with
  | nil => exact absurd rfl hne
  | cons c cs =>
    have h1 : isSpaceChar c = false := hws c (by simp)
    have hcs : ∀ x ∈ cs, (fun x => !isSpaceChar x) x = true :=
      fun x hx => by simp [hws x (by simp [hx])]
    have h2 : (cs ++ ' ' :: r).takeWhile (fun x => !isSpaceChar x) = cs := by
      rw [takeWhile_append_all hcs]
      simp [List.takeWhile_cons, isSpaceChar]
    have h3 : (cs ++ ' ' :: r).dropWhile (fun x => !isSpaceChar x) = ' ' :: r := by
      rw [dropWhile_append_all hcs]
      simp [List.dropWhile_cons, isSpaceChar]
    simp [splitWs_cons, h1, h2, h3, splitWs_sp_cons,
      show isSpaceChar ' ' = true from rfl]

theorem splitWs_joinSp {ts : List (List Char)}
    (h : ∀ t ∈ ts, t ≠ [] ∧ ∀ c ∈ t, isSpaceChar c = false) :
    splitWs (joinSp ts) = ts := by
  induction ts with
  | nil => rfl
  | cons t ts2 ih =>
    cases ts2 with
    | nil =>
      obtain ⟨h1, h2⟩ := h t (by simp)
      simpa [joinSp] using splitWs_no_ws h1 h2
    | cons t2 ts3 =>
      obtain ⟨h1, h2⟩ := h t (by simp)
      have hj : joinSp (t :: t2 :: ts3) = t ++ ' ' :: joinSp (t2 :: ts3) := rfl
      rw [hj, splitWs_token_append h1 h2,
        ih (fun u hu => h u (List.mem_cons_of_mem _ hu))]

theorem mem_joinSp (ts : List (List Char)) :
    ∀ c ∈ joinSp ts, c = ' ' ∨ ∃ t ∈ ts, c ∈ t := by
  induction ts with
  | nil => simp [joinSp]
  | cons t ts2 ih =>
    intro c h
    cases ts2 with
    | nil => exact Or.inr ⟨t, by simp, by simpa [joinSp] using h⟩
    | cons t2 ts3 =>
      have hj : joinSp (t :: t2 :: ts3) = t ++ ' ' :: joinSp (t2 :: ts3) := rfl
      rw [hj] at h
      rcases List.mem_append.1 h with h2 | h2
      · exact Or.inr ⟨t, by simp, h2⟩
      · rcases List.mem_cons.1 h2 with h3 | h3
        · exact Or.inl h3
        · rcases ih c h3 with h4 | ⟨u, hu, hcu⟩
          · exact Or.inl h4
          · exact Or.inr ⟨u, by simp [hu], hcu⟩

theorem sanitize_no_delim (s : List Char) : '|' ∉ STOCKS.sanitize s := by
  intro h
  rcases mem_joinSp _ '|' h with h2 | ⟨t, ht, hct⟩
  · exact absurd h2 (by decide)
  · obtain ⟨-, h3⟩ := splitWs_mem _ t ht
    have hmem := (h3 '|' hct).2
    rcases List.mem_map.1 hmem with ⟨x, -, hx⟩
    simp only [replaceDelim] at hx
    by_cases hxd : x = '|'
    · subst hxd
      rw [if_pos (by simp)] at hx
      exact absurd hx (by decide)
    · rw [if_neg (by simp [hxd])] at hx
      exact hxd hx

theorem sanitize_ws_space (s : List Char) :
    ∀ c ∈ STOCKS.sanitize s, isSpaceChar c = true → c = ' ' := by
  intro c hc hw
  rcases mem_joinSp _ c hc with h2 | ⟨t, ht, hct⟩
  · exact h2
  · obtain ⟨-, h3⟩ := splitWs_mem _ t ht
    exact absurd hw (by simp [(h3 c hct).1])

theorem sanitize_tokens (s : List Char) :
    splitWs (STOCKS.sanitize s) = splitWs (s.map replaceDelim) := by
  unfold STOCKS.sanitize
  exact splitWs_joinSp (fun t ht =>
    ⟨(splitWs_mem _ t ht).1, fun c hc => ((splitWs_mem _ t ht).2 c hc).1⟩)

theorem lookup_map_sanitize (info : List (String × List Char)) (v : List Char)
    (h : List.lookup "longBusinessSummary" info = some v) :
    List.lookup "longBusinessSummary"
      (info.map (fun kv => if kv.1 = "longBusinessSummary"
        then (kv.1, STOCKS.sanitize v) else kv)) = some (STOCKS.sanitize v) := by
  induction info with
  | nil => simp [List.lookup] at h
  | cons kv rest ih =>
    obtain ⟨k, v0⟩ := kv
    by_cases hk : k = "longBusinessSummary"
    · subst hk
      simp [List.lookup_cons]
    · have hb : ("longBusinessSummary" == k) = false :=
        beq_eq_false_iff_ne.mpr (fun e => hk e.symm)
      rw [List.lookup_cons] at h
      simp only [hb] at h
      simp only [List.map_cons]
      rw [show (if k = "longBusinessSummary"
            then (k, STOCKS.sanitize v) else (k, v0)) = (k, v0) from if_neg hk]
      rw [List.lookup_cons]
      simp only [hb]
      exact ih h

theorem lookup_map_keep (info : List (String × List Char)) (w : List Char)
    (k2 : String) (hk2 : k2 ≠ "longBusinessSummary") :
    List.lookup k2 (info.map (fun kv => if kv.1 = "longBusinessSummary"
        then (kv.1, w) else kv)) = List.lookup k2 info := by
  induction info with
  | nil => rfl
  | cons kv rest ih =>
    obtain ⟨k, v0⟩ := kv
    simp only [List.map_cons]
    by_cases hk : k = "longBusinessSummary"
    · subst hk
      have hb : (k2 == "longBusinessSummary") = false :=
        beq_eq_false_iff_ne.mpr hk2
      rw [show (if ("longBusinessSummary" : String) = "longBusinessSummary"
            then (("longBusinessSummary" : String), w)
            else (("longBusinessSummary" : String), v0))
            = (("longBusinessSummary" : String), w) from if_pos rfl]
      rw [List.lookup_cons, List.lookup_cons]
      simp only [hb]
      exact ih
    · rw [show (if k = "longBusinessSummary" then (k, w) else (k, v0))
            = (k, v0) from if_neg hk]
      rw [List.lookup_cons, List.lookup_cons]
      cases hb : (k2 == k) with
      | true => rfl
      | false => exact ih

/-! ## Claim C9 -/

/-- C9 counterexample: the claim says every free-text field is sanitized
    before the record is appended, so no written free-text cell can retain
    the delimiter.  In the code only info['longBusinessSummary'] is
    sanitized (line 257): for a fetched info whose longName is "A|B", the
    written record keeps "A|B" verbatim (second cell), delimiter intact
    and whitespace uncollapsed, while longBusinessSummary "C  D|E" is
    sanitized to "C D,E" (last cell). -/
theorem claim_C9_counterexample :
    (prepareInfo [("symbol", ['X']), ("longName", ['A', '|', 'B']),
        ("longBusinessSummary", ['C', ' ', ' ', 'D', '|', 'E'])]).map rowFor
      = some [['X'], ['A', '|', 'B'], [], [], [], [], [], [], [], [], [],
          [], [], [], [], [], [], [], [], [], [], [],
          ['C', ' ', 'D', ',', 'E']] := by decide

/-- C9 (amended): before a symbol's metadata record is appended, its
    longBusinessSummary field (and only that field) is sanitized: every
    occurrence of the delimiter '|' is replaced by a comma (the sanitized
    text contains no '|'), every whitespace character that survives is a
    single plain space, and the non-whitespace token sequence is exactly
    that of the delimiter-replaced original (internal whitespace runs are
    collapsed to one space); every other field of the record is written as
    fetched.  First conjunct: the sanitize function's properties; second:
    the record-level behavior of the pre-write transform. -/
theorem claim_C9 :
    (∀ s : List Char, '|' ∉ STOCKS.sanitize s ∧
        (∀ c ∈ STOCKS.sanitize s, isSpaceChar c = true → c = ' ') ∧
        splitWs (STOCKS.sanitize s) = splitWs (s.map replaceDelim)) ∧
    (∀ info v, List.lookup "longBusinessSummary" info = some v →
      ∃ info2, prepareInfo info = some info2 ∧
        List.lookup "longBusinessSummary" info2 = some (STOCKS.sanitize v) ∧
        ∀ k2, k2 ≠ "longBusinessSummary" →
          List.lookup k2 info2 = List.lookup k2 info) := by
  constructor
  · intro s
    exact ⟨sanitize_no_delim s, sanitize_ws_space s, sanitize_tokens s⟩
  · intro info v h
    refine ⟨_, by unfold prepareInfo; rw [h], ?_, ?_⟩
    · exact lookup_map_sanitize info v h
    · intro k2 hk2
      exact lookup_map_keep info (STOCKS.sanitize v) k2 hk2

theorem claim_C9_witness :
    '|' ∉ STOCKS.sanitize ['a', '|', 'b'] ∧
    (∃ info2,
      prepareInfo [("longBusinessSummary", ['x', ' ', ' ', 'y', '|', 'z'])]
        = some info2 ∧
      List.lookup "longBusinessSummary" info2
        = some (STOCKS.sanitize ['x', ' ', ' ', 'y', '|', 'z']) ∧
      ∀ k2, k2 ≠ "longBusinessSummary" →
        List.lookup k2 info2
          = List.lookup k2 [("longBusinessSummary", ['x', ' ', ' ', 'y', '|', 'z'])]) :=
  ⟨(claim_C9.1 ['a', '|', 'b']).1,
   claim_C9.2 [("longBusinessSummary", ['x', ' ', ' ', 'y', '|', 'z'])]
     ['x', ' ', ' ', 'y', '|', 'z'] (by simp [List.lookup])⟩

/-! ## Supporting lemmas: REGSHO download and update loop -/

theorem collectParts_fail {parts : List PartFetch} (h : PartFetch.fail ∈ parts) :
    collectParts parts = none := by
  induction parts with
  | nil => simp at h
  | cons p rest ih =>
    cases p with
    | fail => rfl
    | ok df =>
      rcases List.mem_cons.1 h with h2 | h2
      · exact absurd h2 (by simp)
      · simp [collectParts, ih h2]

theorem closedFeed_spec {parts : List PartFetch} (h : closedFeed parts = true) :
    ∃ dfs, collectParts parts = some dfs ∧
      (fieldnames.all (fun c => (concatDF dfs).cols.contains c)) = false := by
  unfold closedFeed at h
  cases hc : collectParts parts with
  | none => rw [hc] at h; simp at h
  | some dfs =>
    rw [hc] at h
    exact ⟨dfs, rfl, by simpa using h⟩

theorem download_data_of_closed {parts : List PartFetch}
    (h : closedFeed parts = true) (store : List RegRow) :
    download_data parts store = RegResult.done (none, store) := by
  obtain ⟨dfs, hc, hm⟩ := closedFeed_spec h
  unfold download_data
  rw [hc]
  simp only [hm]
  simp

theorem regshoLoop_cons_raise {feed : Nat → List PartFetch} {d : Nat}
    {ds : List Nat} {store : List RegRow}
    (h : download_data (feed d) store = RegResult.raise) :
    regshoLoop feed (d :: ds) store = RegResult.raise := by
  simp [regshoLoop, h]

theorem regshoLoop_cons_done {feed : Nat → List PartFetch} {d : Nat}
    {ds : List Nat} {store : List RegRow} {pr : Option DF × List RegRow}
    (h : download_data (feed d) store = RegResult.done pr) :
    regshoLoop feed (d :: ds) store = regshoLoop feed ds pr.2 := by
  obtain ⟨x, s2⟩ := pr
  simp [regshoLoop, h]

theorem regshoLoop_all_closed (feed : Nat → List PartFetch) :
    ∀ (dates : List Nat) (store : List RegRow),
      (∀ d ∈ dates, closedFeed (feed d) = true) →
      regshoLoop feed dates store = RegResult.done store := by
  intro dates
  induction dates with
  | nil => intro store _; rfl
  | cons d rest ih =>
    intro store h
    rw [regshoLoop_cons_done (download_data_of_closed (h d (by simp)) store)]
    exact ih store (fun x hx => h x (by simp [hx]))

/-! ## Claim C2 -/

/-- C2 counterexample: the first partition's fetch raises and the second
    parses fine with all six required fields present, yet download_data
    raises (first conjunct) — the error is not converted to dropping the
    failing partition and the surviving partition is not merged, although
    alone it would pass the required-field check and be appended (second
    conjunct shows the same surviving partition succeeding when no
    partition fails). -/
theorem claim_C2_counterexample :
    download_data [PartFetch.fail,
        PartFetch.ok ⟨fieldnames,
          [[some "20230601", some "AAPL", some "10", some "0",
            some "20", some "N"]]⟩] []
      = RegResult.raise ∧
    download_data [PartFetch.ok ⟨fieldnames,
          [[some "20230601", some "AAPL", some "10", some "0",
            some "20", some "N"]]⟩] []
      = RegResult.done (some ⟨fieldnames,
          [[some "20230601", some "AAPL", some "10", some "0",
            some "20", some "N"]]⟩,
          [[some "20230601", some "AAPL", some "10", some "0",
            some "20", some "N"]]) := by
  constructor <;> decide

/-- C2 (amended): REGSHO.download_data has no try/except, so a fetch or
    parse error for any single venue partition is NOT caught within that
    date's iteration: download_data raises (first conjunct) and the
    exception propagates out of the per-date loop, aborting the entire
    update run (second conjunct).  Rows are dropped only by dropna inside
    successfully parsed partitions, and a date is treated as closed only
    when the successfully fetched concatenation fails the required-field
    check. -/
theorem claim_C2 :
    (∀ parts store, PartFetch.fail ∈ parts →
        download_data parts store = RegResult.raise) ∧
    (∀ feed d rest store, PartFetch.fail ∈ feed d →
        regshoLoop feed (d :: rest) store = RegResult.raise) := by
  have h1 : ∀ (parts : List PartFetch) (store : List RegRow),
      PartFetch.fail ∈ parts → download_data parts store = RegResult.raise := by
    intro parts store h
    unfold download_data
    rw [collectParts_fail h]
  refine ⟨h1, ?_⟩
  intro feed d rest store h
  unfold regshoLoop
  rw [h1 (feed d) store h]

theorem claim_C2_witness :
    download_data [PartFetch.fail] [] = RegResult.raise ∧
    regshoLoop (fun _ => [PartFetch.fail]) [3] [] = RegResult.raise :=
  ⟨claim_C2.1 [PartFetch.fail] [] (by decide),
   claim_C2.2 (fun _ => [PartFetch.fail]) 3 [] [] (by decide)⟩

/-! ## Claim C3 -/

/-- C3: for a candidate date whose concatenated multi-partition fetch
    result is missing at least one of the six required fields,
    download_data returns None with the store unchanged — nothing is
    appended, the return happens before the save (first conjunct) — and
    the update loop continues without error: the run's result is exactly
    the result of the same run without that date anywhere in the candidate
    list, so the date is absent from the store (second conjunct). -/
theorem claim_C3 :
    (∀ parts store dfs, collectParts parts = some dfs →
      (fieldnames.all (fun c => (concatDF dfs).cols.contains c)) = false →
      download_data parts store = RegResult.done (none, store)) ∧
    (∀ feed d, closedFeed (feed d) = true →
      ∀ pre post store,
        regshoLoop feed (pre ++ d :: post) store
          = regshoLoop feed (pre ++ post) store) := by
  constructor
  · intro parts store dfs hc hm
    unfold download_data
    rw [hc]
    simp only [hm]
    simp
  · intro feed d hd pre
    induction pre with
    | nil =>
      intro post store
      simp only [List.nil_append]
      rw [regshoLoop_cons_done (download_data_of_closed hd store)]
    | cons d2 pre ih =>
      intro post store
      simp only [List.cons_append]
      cases h2 : download_data (feed d2) store with
      | raise => rw [regshoLoop_cons_raise h2, regshoLoop_cons_raise h2]
      | done pr =>
        rw [regshoLoop_cons_done h2, regshoLoop_cons_done h2]
        exact ih post pr.2

theorem claim_C3_witness :
    download_data [PartFetch.ok ⟨["X"], [[some "c"]]⟩] []
      = RegResult.done (none, []) ∧
    regshoLoop (fun _ => [PartFetch.ok ⟨["X"], [[some "c"]]⟩]) [7] []
      = regshoLoop (fun _ => [PartFetch.ok ⟨["X"], [[some "c"]]⟩]) [] [] :=
  ⟨claim_C3.1 [PartFetch.ok ⟨["X"], [[some "c"]]⟩] []
      [⟨["X"], [[some "c"]]⟩] (by decide) (by decide),
   claim_C3.2 (fun _ => [PartFetch.ok ⟨["X"], [[some "c"]]⟩]) 7 (by decide)
      [] [] []⟩

/-! ## Claim C6 -/

/-- C6 counterexample: a second immediate run with no new upstream data
    whose single candidate date is upstream-closed.  The store's last line
    is Thursday 2023-06-01 (day 19509) because Friday's feed lacks the
    required fields (it still does — no new upstream data); now is Friday
    2023-06-02 (day 19510) at 21:00 Eastern, past the cutoff.  The second
    run's computed effective trading-date range is [19510] — NOT empty,
    contradicting the claim — although it writes zero additional rows. -/
theorem claim_C6_counterexample :
    regshoCandidates (fun _ => false) true 19509 ⟨19510, 21⟩ = [19510] ∧
    REGSHO.update (fun _ => false)
      (fun _ => [PartFetch.ok ⟨["X"], [[some "c"]]⟩])
      true 19509 ⟨19510, 21⟩ [] = RegResult.done [] := by
  constructor <;> decide

/-- C6 (amended): running a synchronizer again when the store is already
    current appends nothing.  For the Short-Volume Synchronizer, a second
    immediate run with no new upstream data writes zero additional rows:
    every candidate date of the recomputed range is still closed upstream
    (missing required fields), so the store is returned unchanged (first
    conjunct) — but the computed effective range itself need not be empty:
    it is the list of trading dates in [last stored date + 1, effective
    end], and it is empty exactly when no trading date (non-weekend,
    non-holiday) lies in that interval (second conjunct); in particular it
    is empty when only weekend or holiday days follow the stored last
    date, and non-empty when trailing candidate dates were upstream-closed
    — the counterexample's case, where each such date is re-tried and
    again yields no write.  For the Per-Symbol History Synchronizer, a
    symbol whose candidate date list is empty is skipped with no write,
    and the result does not depend on the quotes fetch at all — no fetch
    is used (third conjunct, quantified over every possible fetch
    outcome). -/
theorem claim_C6 :
    (∀ hol feed fe ld now store,
      (∀ d ∈ regshoCandidates hol fe ld now, closedFeed (feed d) = true) →
      REGSHO.update hol feed fe ld now store = RegResult.done store) ∧
    (∀ (hol : Nat → Bool) (fe : Bool) (ld : Nat) (now : EasternNow),
      regshoCandidates hol fe ld now = [] ↔
        ∀ d, regshoStart fe ld ≤ d → d ≤ regshoEnd now →
          isWeekend d = false → hol d = false → False) ∧
    (∀ (α : Type) (hol : Nat → Bool) (svEnd : Nat)
        (s0 : Nat × (Option α × Option Agg)) srest fetch svrows,
      trading_dates hol (((s0 :: srest).getLastD s0).1 + 1) svEnd = [] →
      stocksStep hol svEnd (s0 :: srest) fetch svrows = s0 :: srest) := by
  refine ⟨?_, ?_, ?_⟩
  · intro hol feed fe ld now store h
    exact regshoLoop_all_closed feed _ store h
  · intro hol fe ld now
    rw [List.eq_nil_iff_forall_not_mem]
    constructor
    · intro h d h1 h2 h3 h4
      exact h d (mem_trading_dates.mpr ⟨h1, h2, h3, h4⟩)
    · intro h d hd
      have hm := mem_trading_dates.mp hd
      exact h d hm.1 hm.2.1 hm.2.2.1 hm.2.2.2
  · intro α hol svEnd s0 srest fetch svrows h
    rw [List.getLastD_eq_getLast?] at h
    simp [stocksStep, h]

theorem claim_C6_witness :
    REGSHO.update (fun _ => false)
      (fun _ => [PartFetch.ok ⟨["X"], [[some "c"]]⟩])
      true 19509 ⟨19510, 21⟩ [] = RegResult.done [] ∧
    regshoCandidates (fun _ => false) true 19510 ⟨19511, 21⟩ = [] ∧
    stocksStep (fun _ => false) 19509
      [(19509, ((some 1 : Option Nat), none))] Fetch.fail []
      = [(19509, (some 1, none))] :=
  ⟨claim_C6.1 (fun _ => false) _ true 19509 ⟨19510, 21⟩ [] (by decide),
   (claim_C6.2.1 (fun _ => false) true 19510 ⟨19511, 21⟩).mpr (by
     intro d h1 h2 h3 _
     have hs : regshoStart true 19510 = 19511 := rfl
     have he : regshoEnd ⟨19511, 21⟩ = 19511 := rfl
     rw [hs] at h1
     rw [he] at h2
     have hd : d = 19511 := by omega
     rw [hd] at h3
     exact absurd h3 (by decide)),
   claim_C6.2.2 Nat (fun _ => false) 19509 (19509, (some 1, none)) []
     Fetch.fail [] (by decide)⟩

/-! ## Supporting lemmas: association lists keyed by date -/

theorem lookup_eq_none_iff_keys {β : Type} (l : List (Nat × β)) (d : Nat) :
    List.lookup d l = none ↔ d ∉ l.map Prod.fst := by
  induction l with
  | nil => simp [List.lookup]
  | cons p t ih =>
    obtain ⟨k, v⟩ := p
    by_cases hk : d = k
    · subst hk
      simp [List.lookup_cons]
    · have hb : (d == k) = false := beq_eq_false_iff_ne.mpr hk
      simp [List.lookup_cons, hb, ih, hk]

theorem lookup_of_mem_pairwise {β : Type} {l : List (Nat × β)}
    (h : (l.map Prod.fst).Pairwise (· < ·)) {p : Nat × β} (hp : p ∈ l) :
    List.lookup p.1 l = some p.2 := by
  induction l with
  | nil => simp at hp
  | cons q t ih =>
    obtain ⟨k, v⟩ := q
    rw [List.map_cons, List.pairwise_cons] at h
    rcases List.mem_cons.1 hp with h2 | h2
    · rw [h2]
      simp [List.lookup_cons]
    · have hk : k < p.1 := h.1 p.1 (List.mem_map.2 ⟨p, h2, rfl⟩)
      have hb : (p.1 == k) = false := beq_eq_false_iff_ne.mpr (by omega)
      simp [List.lookup_cons, hb, ih h.2 h2]

theorem lookup_filter_key {β : Type} (q : Nat → Bool) (l : List (Nat × β)) (d : Nat) :
    List.lookup d (l.filter (fun p => q p.1))
      = if q d = true then List.lookup d l else none := by
  induction l with
  | nil => simp [List.lookup]
  | cons p t ih =>
    obtain ⟨k, v⟩ := p
    by_cases hqk : q k = true
    · rw [List.filter_cons_of_pos (by simpa using hqk)]
      by_cases hk : d = k
      · subst hk
        simp [List.lookup_cons, hqk]
      · have hb : (d == k) = false := beq_eq_false_iff_ne.mpr hk
        simp [List.lookup_cons, hb, ih]
    · rw [List.filter_cons_of_neg (by simpa using hqk)]
      by_cases hk : d = k
      · subst hk
        rw [ih, if_neg hqk, if_neg hqk]
      · have hb : (d == k) = false := beq_eq_false_iff_ne.mpr hk
        rw [ih]
        by_cases hqd : q d = true
        · rw [if_pos hqd, if_pos hqd]
          simp [List.lookup_cons, hb]
        · rw [if_neg hqd, if_neg hqd]

/-! ## Supporting lemmas: groupby-sum (insertAdd, groupSum) -/

theorem insertAdd_nil (d : Nat) (a : Agg) : insertAdd d a [] = [(d, a)] := rfl

theorem insertAdd_lt {d d2 : Nat} {a b : Agg} {t : List (Nat × Agg)} (h : d < d2) :
    insertAdd d a ((d2, b) :: t) = (d, a) :: (d2, b) :: t := by
  simp [insertAdd, h]

theorem insertAdd_same {d d2 : Nat} {a b : Agg} {t : List (Nat × Agg)} (h : d = d2) :
    insertAdd d a ((d2, b) :: t) = (d2, addAgg b a) :: t := by
  subst h
  simp [insertAdd]

theorem insertAdd_gt {d d2 : Nat} {a b : Agg} {t : List (Nat × Agg)}
    (h1 : ¬d < d2) (h2 : ¬d = d2) :
    insertAdd d a ((d2, b) :: t) = (d2, b) :: insertAdd d a t := by
  simp [insertAdd, h1, h2]

theorem insertAdd_keys_mem (d : Nat) (a : Agg) :
    ∀ (l : List (Nat × Agg)) (k : Nat), k ∈ (insertAdd d a l).map Prod.fst →
      k = d ∨ k ∈ l.map Prod.fst := by
  intro l
  induction l with
  | nil =>
    intro k hk
    rw [insertAdd_nil] at hk
    simp at hk
    exact Or.inl hk
  | cons p t ih =>
    obtain ⟨d2, b⟩ := p
    intro k hk
    by_cases h1 : d < d2
    · rw [insertAdd_lt h1] at hk
      simp at hk
      rcases hk with h | h | h
      · exact Or.inl h
      · exact Or.inr (by simp [h])
      · exact Or.inr (by simp [h])
    · by_cases h2 : d = d2
      · rw [insertAdd_same h2] at hk
        simp at hk
        rcases hk with h | h
        · exact Or.inr (by simp [h])
        · exact Or.inr (by simp [h])
      · rw [insertAdd_gt h1 h2] at hk
        simp at hk
        rcases hk with h | h
        · exact Or.inr (by simp [h])
        · rcases ih k (by simpa using h) with h3 | h3
          · exact Or.inl h3
          · exact Or.inr (by simp [h3])

theorem insertAdd_keys_pairwise (d : Nat) (a : Agg) :
    ∀ (l : List (Nat × Agg)), ((l.map Prod.fst).Pairwise (· < ·)) →
      (((insertAdd d a l).map Prod.fst).Pairwise (· < ·)) := by
  intro l
  induction l with
  | nil =>
    intro _
    rw [insertAdd_nil]
    simp
  | cons p t ih =>
    obtain ⟨d2, b⟩ := p
    intro h
    rw [List.map_cons, List.pairwise_cons] at h
    by_cases h1 : d < d2
    · rw [insertAdd_lt h1]
      simp only [List.map_cons]
      refine List.pairwise_cons.mpr ⟨?_, List.pairwise_cons.mpr h⟩
      intro k hk
      rcases List.mem_cons.1 hk with h2 | h2
      · omega
      · have := h.1 k h2
        omega
    · by_cases h2 : d = d2
      · rw [insertAdd_same h2]
        simp only [List.map_cons]
        exact List.pairwise_cons.mpr h
      · rw [insertAdd_gt h1 h2]
        simp only [List.map_cons]
        refine List.pairwise_cons.mpr ⟨?_, ih h.2⟩
        intro k hk
        rcases insertAdd_keys_mem d a t k hk with h3 | h3
        · omega
        · exact h.1 k h3

theorem insertAdd_lookup (d : Nat) (a : Agg) :
    ∀ (l : List (Nat × Agg)), ((l.map Prod.fst).Pairwise (· < ·)) → ∀ (d2 : Nat),
      List.lookup d2 (insertAdd d a l)
        = if d2 = d
          then some (addAgg ((List.lookup d l).getD ⟨0, 0, 0⟩) a)
          else List.lookup d2 l := by
  intro l
  induction l with
  | nil =>
    intro _ d2
    rw [insertAdd_nil]
    by_cases h : d2 = d
    · subst h
      simp [List.lookup_cons, addAgg]
    · have hb : (d2 == d) = false := beq_eq_false_iff_ne.mpr h
      simp [List.lookup_cons, hb, h, List.lookup]
  | cons p t ih =>
    obtain ⟨d1, b⟩ := p
    intro h d2
    rw [List.map_cons, List.pairwise_cons] at h
    by_cases h1 : d < d1
    · rw [insertAdd_lt h1]
      have hdn : List.lookup d ((d1, b) :: t) = none := by
        rw [lookup_eq_none_iff_keys]
        intro hmem
        rw [List.map_cons] at hmem
        rcases List.mem_cons.1 hmem with h2 | h2
        · omega
        · have := h.1 d h2
          omega
      by_cases hd2 : d2 = d
      · subst hd2
        rw [if_pos rfl, hdn]
        simp [List.lookup_cons, addAgg]
      · have hb : (d2 == d) = false := beq_eq_false_iff_ne.mpr hd2
        rw [if_neg hd2]
        simp [List.lookup_cons, hb]
    · by_cases heq : d = d1
      · subst heq
        rw [insertAdd_same rfl]
        by_cases hd2 : d2 = d
        · subst hd2
          rw [if_pos rfl]
          simp [List.lookup_cons]
        · have hb : (d2 == d) = false := beq_eq_false_iff_ne.mpr hd2
          rw [if_neg hd2]
          simp [List.lookup_cons, hb]
      · rw [insertAdd_gt h1 heq]
        have hgt : d1 < d := by omega
        have hbd : (d == d1) = false := beq_eq_false_iff_ne.mpr (by omega)
        by_cases hd2 : d2 = d
        · rw [if_pos hd2, hd2, List.lookup_cons, List.lookup_cons]
          simp only [hbd]
          rw [ih h.2 d, if_pos rfl]
        · have hb2 : (d2 == d) = false := beq_eq_false_iff_ne.mpr hd2
          rw [if_neg hd2]
          by_cases hd21 : d2 = d1
          · subst hd21
            simp [List.lookup_cons]
          · have hb3 : (d2 == d1) = false := beq_eq_false_iff_ne.mpr hd21
            rw [List.lookup_cons]
            simp only [hb3]
            rw [List.lookup_cons]
            simp only [hb3]
            rw [ih h.2 d2, if_neg hd2]

theorem groupSum_cons (r : SVRow) (t : List SVRow) :
    groupSum (r :: t) = insertAdd r.date (toAgg r) (groupSum t) := rfl

theorem groupSum_keys_pairwise (rows : List SVRow) :
    ((groupSum rows).map Prod.fst).Pairwise (· < ·) := by
  induction rows with
  | nil => simp [groupSum]
  | cons r t ih =>
    rw [groupSum_cons]
    exact insertAdd_keys_pairwise _ _ _ ih

theorem groupSum_lookup (rows : List SVRow) (d : Nat) :
    List.lookup d (groupSum rows)
      = if rows.filter (fun r => r.date == d) = [] then none
        else some ⟨((rows.filter (fun r => r.date == d)).map SVRow.sv).sum,
                   ((rows.filter (fun r => r.date == d)).map SVRow.sev).sum,
                   ((rows.filter (fun r => r.date == d)).map SVRow.tv).sum⟩ := by
  induction rows with
  | nil => simp [groupSum, List.lookup]
  | cons r t ih =>
    rw [groupSum_cons,
      insertAdd_lookup r.date (toAgg r) (groupSum t) (groupSum_keys_pairwise t) d]
    by_cases hd : d = r.date
    · rw [if_pos hd, List.filter_cons_of_pos (by simp [hd]), if_neg (by simp)]
      rw [← hd, ih]
      by_cases hft : t.filter (fun r2 => r2.date == d) = []
      · rw [if_pos hft, hft]
        simp [addAgg, toAgg]
      · rw [if_neg hft]
        simp only [Option.getD_some, List.map_cons, List.sum_cons,
          Option.some.injEq, addAgg, toAgg, Agg.mk.injEq]
        omega
    · have hb : (r.date == d) = false := beq_eq_false_iff_ne.mpr (fun e => hd e.symm)
      rw [if_neg hd, List.filter_cons_of_neg (by simp [hb]), ih]

/-! ## Supporting lemmas: duplicate-index removal -/

theorem dupGo_cons_seen {β : Type} {seen : List Nat} {d : Nat} {x : β}
    {t : List (Nat × β)} (h : seen.contains d = true) :
    dupGo seen ((d, x) :: t) = dupGo seen t := by
  show (if seen.contains d = true then dupGo seen t
        else (d, x) :: dupGo (d :: seen) t) = dupGo seen t
  rw [if_pos h]

theorem dupGo_cons_new {β : Type} {seen : List Nat} {d : Nat} {x : β}
    {t : List (Nat × β)} (h : seen.contains d = false) :
    dupGo seen ((d, x) :: t) = (d, x) :: dupGo (d :: seen) t := by
  show (if seen.contains d = true then dupGo seen t
        else (d, x) :: dupGo (d :: seen) t) = (d, x) :: dupGo (d :: seen) t
  rw [if_neg (by rw [h]; simp)]

theorem dupGo_sublist {β : Type} (rows : List (Nat × β)) :
    ∀ seen, (dupGo seen rows).Sublist rows := by
  induction rows with
  | nil => intro seen; simp [dupGo]
  | cons p t ih =>
    obtain ⟨d, x⟩ := p
    intro seen
    cases h : seen.contains d with
    | true =>
      rw [dupGo_cons_seen h]
      exact (ih seen).cons _
    | false =>
      rw [dupGo_cons_new h]
      exact (ih (d :: seen)).cons₂ _

theorem dupGo_keys_nodup {β : Type} (rows : List (Nat × β)) :
    ∀ seen, ((dupGo seen rows).map Prod.fst).Nodup ∧
      ∀ k ∈ (dupGo seen rows).map Prod.fst, k ∉ seen := by
  induction rows with
  | nil => intro seen; simp [dupGo]
  | cons p t ih =>
    obtain ⟨d, x⟩ := p
    intro seen
    cases h : seen.contains d with
    | true =>
      rw [dupGo_cons_seen h]
      exact ih seen
    | false =>
      rw [dupGo_cons_new h]
      obtain ⟨h1, h2⟩ := ih (d :: seen)
      constructor
      · simp only [List.map_cons, List.nodup_cons]
        exact ⟨fun hmem => (h2 d hmem) (by simp), h1⟩
      · intro k hk
        rw [List.map_cons] at hk
        rcases List.mem_cons.1 hk with h3 | h3
        · subst h3
          simpa using h
        · intro hks
          exact (h2 k h3) (by simp [hks])

theorem dupGo_lookup {β : Type} (rows : List (Nat × β)) :
    ∀ seen d, d ∉ seen →
      List.lookup d (dupGo seen rows) = List.lookup d rows := by
  induction rows with
  | nil => intro seen d _; rfl
  | cons p t ih =>
    obtain ⟨d1, x⟩ := p
    intro seen d hd
    cases h : seen.contains d1 with
    | true =>
      rw [dupGo_cons_seen h]
      have hne : d ≠ d1 := by
        intro e
        subst e
        exact hd (by simpa using h)
      have hb : (d == d1) = false := beq_eq_false_iff_ne.mpr hne
      rw [ih seen d hd, List.lookup_cons]
      simp [hb]
    | false =>
      rw [dupGo_cons_new h]
      by_cases hdd : d = d1
      · subst hdd
        simp [List.lookup_cons]
      · have hb : (d == d1) = false := beq_eq_false_iff_ne.mpr hdd
        rw [List.lookup_cons, List.lookup_cons]
        simp only [hb]
        exact ih (d1 :: seen) d (by simp [hdd, hd])

theorem dedupKeepFirst_sublist {β : Type} (rows : List (Nat × β)) :
    (dedupKeepFirst rows).Sublist rows :=
  dupGo_sublist rows []

theorem dedupKeepFirst_keys_nodup {β : Type} (rows : List (Nat × β)) :
    ((dedupKeepFirst rows).map Prod.fst).Nodup :=
  (dupGo_keys_nodup rows []).1

theorem dedupKeepFirst_lookup {β : Type} (rows : List (Nat × β)) (d : Nat) :
    List.lookup d (dedupKeepFirst rows) = List.lookup d rows :=
  dupGo_lookup rows [] d (by simp)

theorem dupGo_of_nodup {β : Type} (rows : List (Nat × β)) :
    ∀ seen, (rows.map Prod.fst).Nodup →
      (∀ k ∈ rows.map Prod.fst, k ∉ seen) → dupGo seen rows = rows := by
  induction rows with
  | nil => intro seen _ _; rfl
  | cons p t ih =>
    obtain ⟨d, x⟩ := p
    intro seen hnd hdisj
    have hds : seen.contains d = false := by
      cases hc : seen.contains d with
      | true => exact absurd (by simpa using hc) (hdisj d (by simp))
      | false => rfl
    rw [dupGo_cons_new hds]
    rw [List.map_cons, List.nodup_cons] at hnd
    rw [ih (d :: seen) hnd.2 ?_]
    intro k hk
    simp only [List.mem_cons, not_or]
    exact ⟨fun e => hnd.1 (e ▸ hk), (hdisj k (by simp [hk]))⟩

theorem dedupKeepFirst_of_nodup {β : Type} {rows : List (Nat × β)}
    (h : (rows.map Prod.fst).Nodup) : dedupKeepFirst rows = rows :=
  dupGo_of_nodup rows [] h (by simp)

/-! ## Supporting lemmas: the concat-axis-1 alignment -/

theorem alignOuter_nil_left {α γ : Type} (ys : List (Nat × γ)) :
    alignOuter ([] : List (Nat × α)) ys
      = ys.map (fun p => (p.1, (none, some p.2))) := rfl

theorem alignOuter_cons {α γ : Type} (d1 : Nat) (b : α) (xs : List (Nat × α))
    (ys : List (Nat × γ)) :
    alignOuter ((d1, b) :: xs) ys
      = (ys.takeWhile (fun p => p.1 < d1)).map (fun p => (p.1, (none, some p.2)))
          ++ (match ys.dropWhile (fun p => p.1 < d1) with
              | [] => (d1, (some b, none)) :: alignOuter xs []
              | (d2, c) :: ys2 =>
                if d2 = d1 then (d1, (some b, some c)) :: alignOuter xs ys2
                else (d1, (some b, none)) :: alignOuter xs ((d2, c) :: ys2)) := rfl

theorem head_dropWhile_false {β : Type} (p : β → Bool) :
    ∀ (l : List β) {x : β} {xs : List β}, l.dropWhile p = x :: xs → p x = false := by
  intro l
  induction l with
  | nil => intro x xs h; simp at h
  | cons a t ih =>
    intro x xs h
    rw [List.dropWhile_cons] at h
    by_cases hp : p a = true
    · rw [if_pos hp] at h
      exact ih h
    · rw [if_neg hp] at h
      injection h with h1 h2
      rw [← h1]
      simpa using hp

theorem lookup_append_assoc {β : Type} (l1 l2 : List (Nat × β)) (d : Nat) :
    List.lookup d (l1 ++ l2)
      = match List.lookup d l1 with
        | some v => some v
        | none => List.lookup d l2 := by
  induction l1 with
  | nil => rfl
  | cons p t ih =>
    obtain ⟨k, v⟩ := p
    rw [List.cons_append, List.lookup_cons, List.lookup_cons]
    cases hb : (d == k) with
    | true => rfl
    | false => exact ih

theorem lookup_map_right {α γ : Type} (ys : List (Nat × γ)) (d : Nat) :
    List.lookup d (ys.map (fun p => (p.1, ((none : Option α), some p.2))))
      = (List.lookup d ys).map (fun c => (none, some c)) := by
  induction ys with
  | nil => rfl
  | cons p t ih =>
    obtain ⟨k, c⟩ := p
    rw [List.map_cons, List.lookup_cons, List.lookup_cons]
    cases hb : (d == k) with
    | true => rfl
    | false => exact ih

theorem keys_map_right {α γ : Type} (ys : List (Nat × γ)) :
    (ys.map (fun p => (p.1, ((none : Option α), some p.2)))).map Prod.fst
      = ys.map Prod.fst := by
  induction ys with
  | nil => rfl
  | cons p t ih => simp [ih]

theorem mem_keys_of_lookup_some {β : Type} {l : List (Nat × β)} {d : Nat} {v : β}
    (h : List.lookup d l = some v) : d ∈ l.map Prod.fst := by
  by_contra hmem
  rw [(lookup_eq_none_iff_keys l d).mpr hmem] at h
  exact Option.noConfusion h

theorem alignOuter_cons_rest_nil {α γ : Type} {d1 : Nat} {b : α}
    {xs : List (Nat × α)} {ys : List (Nat × γ)}
    (h : ys.dropWhile (fun p => p.1 < d1) = []) :
    alignOuter ((d1, b) :: xs) ys
      = (ys.takeWhile (fun p => p.1 < d1)).map (fun p => (p.1, (none, some p.2)))
          ++ ((d1, (some b, none)) :: alignOuter xs []) := by
  rw [alignOuter_cons, h]

theorem alignOuter_cons_rest_cons {α γ : Type} {d1 : Nat} {b : α}
    {xs : List (Nat × α)} {ys : List (Nat × γ)} {d2 : Nat} {c : γ}
    {ys2 : List (Nat × γ)}
    (h : ys.dropWhile (fun p => p.1 < d1) = (d2, c) :: ys2) :
    alignOuter ((d1, b) :: xs) ys
      = (ys.takeWhile (fun p => p.1 < d1)).map (fun p => (p.1, (none, some p.2)))
          ++ (if d2 = d1 then (d1, (some b, some c)) :: alignOuter xs ys2
              else (d1, (some b, none)) :: alignOuter xs ((d2, c) :: ys2)) := by
  rw [alignOuter_cons, h]

theorem alignOuter_lookup {α γ : Type} :
    ∀ (xs : List (Nat × α)) (ys : List (Nat × γ)) (d : Nat),
      ((xs.map Prod.fst).Pairwise (· < ·)) →
      ((ys.map Prod.fst).Pairwise (· < ·)) →
      List.lookup d (alignOuter xs ys)
        = if ((List.lookup d xs).isSome || (List.lookup d ys).isSome) = true
          then some (List.lookup d xs, List.lookup d ys)
          else none := by
  intro xs
  induction xs with
  | nil =>
    intro ys d _ _
    rw [alignOuter_nil_left, lookup_map_right]
    cases h : List.lookup d ys with
    | none => simp
    | some c => simp
  | cons x xs ihx =>
    obtain ⟨d1, b⟩ := x
    intro ys d hxs hys
    rw [List.map_cons, List.pairwise_cons] at hxs
    have hbelow_lt : ∀ q ∈ ys.takeWhile (fun p => p.1 < d1), q.1 < d1 := by
      intro q hq
      have := List.mem_takeWhile_imp hq
      simpa using this
    have hlookup_ys : List.lookup d ys
        = match List.lookup d (ys.takeWhile (fun p => p.1 < d1)) with
          | some v => some v
          | none => List.lookup d (ys.dropWhile (fun p => p.1 < d1)) := by
      conv_lhs => rw [← List.takeWhile_append_dropWhile
        (fun (p : Nat × γ) => decide (p.1 < d1)) ys]
      exact lookup_append_assoc _ _ d
    have hxhead : d = d1 → List.lookup d ((d1, b) :: xs) = some b := by
      intro hd
      rw [List.lookup_cons]
      simp [hd]
    have hxtail : ¬(d = d1) → List.lookup d ((d1, b) :: xs) = List.lookup d xs := by
      intro hd
      rw [List.lookup_cons]
      simp [beq_eq_false_iff_ne.mpr hd]
    have hsomec : ∀ c, List.lookup d (ys.takeWhile (fun p => p.1 < d1)) = some c →
        List.lookup d (alignOuter ((d1, b) :: xs) ys)
          = if ((List.lookup d ((d1, b) :: xs)).isSome
                || (List.lookup d ys).isSome) = true
            then some (List.lookup d ((d1, b) :: xs), List.lookup d ys)
            else none := by
      intro c hbl
      have hdlt : d < d1 := by
        have hmem := mem_keys_of_lookup_some hbl
        rcases List.mem_map.1 hmem with ⟨q, hq, rfl⟩
        exact hbelow_lt q hq
      have hxnone : List.lookup d ((d1, b) :: xs) = none := by
        rw [lookup_eq_none_iff_keys, List.map_cons]
        intro hmem
        rcases List.mem_cons.1 hmem with h2 | h2
        · omega
        · have := hxs.1 d h2
          omega
      have hyval : List.lookup d ys = some c := by
        rw [hlookup_ys, hbl]
      rw [alignOuter_cons, lookup_append_assoc, lookup_map_right, hbl,
        hxnone, hyval]
      simp
    cases hrest : ys.dropWhile (fun p => p.1 < d1) with
    | nil =>
      cases hbl : List.lookup d (ys.takeWhile (fun p => p.1 < d1)) with
      | some c => exact hsomec c hbl
      | none =>
        have hyrest : List.lookup d ys = none := by
          rw [hlookup_ys, hbl, hrest, List.lookup_nil]
        rw [alignOuter_cons_rest_nil hrest, lookup_append_assoc,
          lookup_map_right, hbl]
        simp only [Option.map_none']
        by_cases hd : d = d1
        · rw [List.lookup_cons]
          simp only [show (d == d1) = true by simp [hd]]
          rw [hxhead hd, hyrest]
          simp
        · rw [List.lookup_cons]
          simp only [beq_eq_false_iff_ne.mpr hd]
          rw [ihx [] d hxs.2 (by simp), hxtail hd, hyrest]
          simp
    | cons q ys2 =>
      obtain ⟨d2, c⟩ := q
      have hrest_pw : (((d2, c) :: ys2).map Prod.fst).Pairwise (· < ·) := by
        have hsub := (List.dropWhile_sublist
          (fun (p : Nat × γ) => decide (p.1 < d1)) (l := ys)).map Prod.fst
        rw [hrest] at hsub
        exact List.Pairwise.sublist hsub hys
      have hys2 : (ys2.map Prod.fst).Pairwise (· < ·) := by
        rw [List.map_cons, List.pairwise_cons] at hrest_pw
        exact hrest_pw.2
      have hd2tail : ∀ k ∈ ys2.map Prod.fst, d2 < k := by
        rw [List.map_cons, List.pairwise_cons] at hrest_pw
        exact hrest_pw.1
      have hd2ge : ¬(d2 < d1) := by
        have := head_dropWhile_false _ ys hrest
        simpa using this
      cases hbl : List.lookup d (ys.takeWhile (fun p => p.1 < d1)) with
      | some c2 => exact hsomec c2 hbl
      | none =>
        have hyrest : List.lookup d ys = List.lookup d ((d2, c) :: ys2) := by
          rw [hlookup_ys, hbl, hrest]
        rw [alignOuter_cons_rest_cons hrest, lookup_append_assoc,
          lookup_map_right, hbl]
        simp only [Option.map_none']
        by_cases hd21 : d2 = d1
        · rw [if_pos hd21]
          by_cases hd : d = d1
          · rw [List.lookup_cons]
            simp only [show (d == d1) = true by simp [hd]]
            have hyval : List.lookup d ((d2, c) :: ys2) = some c := by
              rw [List.lookup_cons]
              simp [hd, hd21]
            rw [hxhead hd, hyrest, hyval]
            simp
          · rw [List.lookup_cons]
            simp only [beq_eq_false_iff_ne.mpr hd]
            have hytail : List.lookup d ((d2, c) :: ys2) = List.lookup d ys2 := by
              rw [List.lookup_cons]
              simp [beq_eq_false_iff_ne.mpr
                (show d ≠ d2 by rw [hd21]; exact hd)]
            rw [ihx ys2 d hxs.2 hys2, hxtail hd, hyrest, hytail]
        · rw [if_neg hd21]
          by_cases hd : d = d1
          · rw [List.lookup_cons]
            simp only [show (d == d1) = true by simp [hd]]
            have hyval : List.lookup d ((d2, c) :: ys2) = none := by
              rw [lookup_eq_none_iff_keys, List.map_cons]
              intro hmem
              rcases List.mem_cons.1 hmem with h2 | h2
              · omega
              · have := hd2tail d h2
                omega
            rw [hxhead hd, hyrest, hyval]
            simp
          · rw [List.lookup_cons]
            simp only [beq_eq_false_iff_ne.mpr hd]
            rw [ihx ((d2, c) :: ys2) d hxs.2 hrest_pw, hxtail hd, hyrest]

theorem takeWhile_lt_keys {γ : Type} (ys : List (Nat × γ)) (d1 : Nat) :
    ∀ k ∈ (ys.takeWhile (fun p => p.1 < d1)).map Prod.fst, k < d1 := by
  intro k hk
  rcases List.mem_map.1 hk with ⟨q, hq, rfl⟩
  have := List.mem_takeWhile_imp hq
  simpa using this

theorem alignOuter_keys_subset {α γ : Type} :
    ∀ (xs : List (Nat × α)) (ys : List (Nat × γ)) (k : Nat),
      k ∈ (alignOuter xs ys).map Prod.fst →
      k ∈ xs.map Prod.fst ∨ k ∈ ys.map Prod.fst := by
  intro xs
  induction xs with
  | nil =>
    intro ys k hk
    rw [alignOuter_nil_left, keys_map_right] at hk
    exact Or.inr hk
  | cons x xs ihx =>
    obtain ⟨d1, b⟩ := x
    intro ys k hk
    cases hrest : ys.dropWhile (fun p => p.1 < d1) with
    | nil =>
      rw [alignOuter_cons_rest_nil hrest, List.map_append, keys_map_right] at hk
      rcases List.mem_append.1 hk with h | h
      · exact Or.inr (((List.takeWhile_sublist _).map Prod.fst).subset h)
      · rw [List.map_cons] at h
        rcases List.mem_cons.1 h with h2 | h2
        · exact Or.inl (by rw [List.map_cons]; exact List.mem_cons.2 (Or.inl h2))
        · rcases ihx [] k h2 with h3 | h3
          · exact Or.inl (by rw [List.map_cons]; exact List.mem_cons.2 (Or.inr h3))
          · simp at h3
    | cons q ys2 =>
      obtain ⟨d2, c⟩ := q
      have hys2mem : ∀ k2, k2 ∈ ((d2, c) :: ys2).map Prod.fst →
          k2 ∈ ys.map Prod.fst := by
        intro k2 hk2
        have hsub := (List.dropWhile_sublist
          (fun (p : Nat × γ) => decide (p.1 < d1)) (l := ys)).map Prod.fst
        rw [hrest] at hsub
        exact hsub.subset hk2
      rw [alignOuter_cons_rest_cons hrest, List.map_append, keys_map_right] at hk
      rcases List.mem_append.1 hk with h | h
      · exact Or.inr (((List.takeWhile_sublist _).map Prod.fst).subset h)
      · by_cases hd21 : d2 = d1
        · rw [if_pos hd21, List.map_cons] at h
          rcases List.mem_cons.1 h with h2 | h2
          · exact Or.inl (by rw [List.map_cons]; exact List.mem_cons.2 (Or.inl h2))
          · rcases ihx ys2 k h2 with h3 | h3
            · exact Or.inl (by rw [List.map_cons]; exact List.mem_cons.2 (Or.inr h3))
            · exact Or.inr (hys2mem k
                (by rw [List.map_cons]; exact List.mem_cons.2 (Or.inr h3)))
        · rw [if_neg hd21, List.map_cons] at h
          rcases List.mem_cons.1 h with h2 | h2
          · exact Or.inl (by rw [List.map_cons]; exact List.mem_cons.2 (Or.inl h2))
          · rcases ihx ((d2, c) :: ys2) k h2 with h3 | h3
            · exact Or.inl (by rw [List.map_cons]; exact List.mem_cons.2 (Or.inr h3))
            · exact Or.inr (hys2mem k h3)

theorem alignOuter_keys_pairwise {α γ : Type} :
    ∀ (xs : List (Nat × α)) (ys : List (Nat × γ)),
      ((xs.map Prod.fst).Pairwise (· < ·)) →
      ((ys.map Prod.fst).Pairwise (· < ·)) →
      (((alignOuter xs ys).map Prod.fst).Pairwise (· < ·)) := by
  intro xs
  induction xs with
  | nil =>
    intro ys _ hys
    rw [alignOuter_nil_left, keys_map_right]
    exact hys
  | cons x xs ihx =>
    obtain ⟨d1, b⟩ := x
    intro ys hxs hys
    rw [List.map_cons, List.pairwise_cons] at hxs
    have hbelow_pw : ((ys.takeWhile (fun p => p.1 < d1)).map Prod.fst).Pairwise
        (· < ·) :=
      List.Pairwise.sublist ((List.takeWhile_sublist _).map Prod.fst) hys
    cases hrest : ys.dropWhile (fun p => p.1 < d1) with
    | nil =>
      have htail : ∀ k ∈ (alignOuter xs ([] : List (Nat × γ))).map Prod.fst,
          d1 < k := by
        intro k hk
        rcases alignOuter_keys_subset xs [] k hk with h3 | h3
        · exact hxs.1 k h3
        · simp at h3
      rw [alignOuter_cons_rest_nil hrest, List.map_append, keys_map_right,
        List.map_cons, List.pairwise_append]
      refine ⟨hbelow_pw, ?_, ?_⟩
      · rw [List.pairwise_cons]
        exact ⟨htail, ihx [] hxs.2 (by simp)⟩
      · intro a ha k hk
        have ha1 := takeWhile_lt_keys ys d1 a ha
        rcases List.mem_cons.1 hk with h2 | h2
        · omega
        · have := htail k h2
          omega
    | cons q ys2 =>
      obtain ⟨d2, c⟩ := q
      have hrest_pw : (((d2, c) :: ys2).map Prod.fst).Pairwise (· < ·) := by
        have hsub := (List.dropWhile_sublist
          (fun (p : Nat × γ) => decide (p.1 < d1)) (l := ys)).map Prod.fst
        rw [hrest] at hsub
        exact List.Pairwise.sublist hsub hys
      have hys2 : (ys2.map Prod.fst).Pairwise (· < ·) := by
        rw [List.map_cons, List.pairwise_cons] at hrest_pw
        exact hrest_pw.2
      have hd2tail : ∀ k ∈ ys2.map Prod.fst, d2 < k := by
        rw [List.map_cons, List.pairwise_cons] at hrest_pw
        exact hrest_pw.1
      have hd2ge : ¬(d2 < d1) := by
        have := head_dropWhile_false _ ys hrest
        simpa using this
      by_cases hd21 : d2 = d1
      · have htail : ∀ k ∈ (alignOuter xs ys2).map Prod.fst, d1 < k := by
          intro k hk
          rcases alignOuter_keys_subset xs ys2 k hk with h3 | h3
          · exact hxs.1 k h3
          · have := hd2tail k h3
            omega
        rw [alignOuter_cons_rest_cons hrest, if_pos hd21, List.map_append,
          keys_map_right, List.map_cons, List.pairwise_append]
        refine ⟨hbelow_pw, ?_, ?_⟩
        · rw [List.pairwise_cons]
          exact ⟨htail, ihx ys2 hxs.2 hys2⟩
        · intro a ha k hk
          have ha1 := takeWhile_lt_keys ys d1 a ha
          rcases List.mem_cons.1 hk with h2 | h2
          · omega
          · have := htail k h2
            omega
      · have htail : ∀ k ∈ (alignOuter xs ((d2, c) :: ys2)).map Prod.fst,
            d1 < k := by
          intro k hk
          rcases alignOuter_keys_subset xs ((d2, c) :: ys2) k hk with h3 | h3
          · exact hxs.1 k h3
          · rw [List.map_cons] at h3
            rcases List.mem_cons.1 h3 with h4 | h4
            · omega
            · have := hd2tail k h4
              omega
        rw [alignOuter_cons_rest_cons hrest, if_neg hd21, List.map_append,
          keys_map_right, List.map_cons, List.pairwise_append]
        refine ⟨hbelow_pw, ?_, ?_⟩
        · rw [List.pairwise_cons]
          exact ⟨htail, ihx ((d2, c) :: ys2) hxs.2 hrest_pw⟩
        · intro a ha k hk
          have ha1 := takeWhile_lt_keys ys d1 a ha
          rcases List.mem_cons.1 hk with h2 | h2
          · omega
          · have := htail k h2
            omega

/-! ## Supporting lemmas: the per-symbol merge -/

theorem pairwise_head_le {β : Type} {b0 : Nat × β} {rest : List (Nat × β)}
    (h : ((b0 :: rest).map Prod.fst).Pairwise (· < ·)) :
    ∀ p ∈ b0 :: rest, b0.1 ≤ p.1 := by
  intro p hp
  rcases List.mem_cons.1 hp with h2 | h2
  · rw [h2]
  · rw [List.map_cons, List.pairwise_cons] at h
    have := h.1 p.1 (List.mem_map.2 ⟨p, h2, rfl⟩)
    omega

theorem pairwise_le_last {β : Type} :
    ∀ (rest : List (Nat × β)) (b0 : Nat × β),
      ((b0 :: rest).map Prod.fst).Pairwise (· < ·) →
      ∀ p ∈ b0 :: rest, p.1 ≤ ((b0 :: rest).getLastD b0).1 := by
  intro rest
  induction rest with
  | nil =>
    intro b0 _ p hp
    rcases List.mem_cons.1 hp with h2 | h2
    · rw [h2, List.getLastD_cons, List.getLastD_nil]
    · simp at h2
  | cons b1 rest ih =>
    intro b0 h p hp
    have hhead : b0.1 < b1.1 := by
      rw [List.map_cons, List.pairwise_cons] at h
      exact h.1 b1.1 (by rw [List.map_cons]; exact List.mem_cons.2 (Or.inl rfl))
    have htail := ih b1 (by rw [List.map_cons, List.pairwise_cons] at h; exact h.2)
    have htail2 : ∀ p ∈ b1 :: rest, p.1 ≤ (rest.getLastD b1).1 := by
      intro p2 hp2
      have := htail p2 hp2
      rwa [List.getLastD_cons] at this
    rw [List.getLastD_cons, List.getLastD_cons]
    rcases List.mem_cons.1 hp with h2 | h2
    · have h3 := htail2 b1 (by simp)
      rw [h2]
      omega
    · exact htail2 p h2

theorem keys_filter_pairwise {β : Type} (q : (Nat × β) → Bool)
    (l : List (Nat × β)) (h : (l.map Prod.fst).Pairwise (· < ·)) :
    (((l.filter q).map Prod.fst)).Pairwise (· < ·) :=
  List.Pairwise.sublist ((List.filter_sublist l).map Prod.fst) h

theorem stocksMerge_def {α : Type} (b0 : Nat × α) (rest : List (Nat × α))
    (sv : List SVRow) :
    stocksMerge b0 rest sv
      = dedupKeepFirst (alignOuter (b0 :: rest)
          (((groupSum sv).filter (fun p => b0.1 ≤ p.1)).filter
            (fun p => p.1 ≤ ((b0 :: rest).getLastD b0).1))) := rfl

theorem restricted_keys_pairwise (sv : List SVRow) (lo hi : Nat) :
    ((((groupSum sv).filter (fun p => lo ≤ p.1)).filter
        (fun p => p.1 ≤ hi)).map Prod.fst).Pairwise (· < ·) :=
  keys_filter_pairwise _ _ (keys_filter_pairwise _ _ (groupSum_keys_pairwise sv))

theorem stocksMerge_eq {α : Type} (b0 : Nat × α) (rest : List (Nat × α))
    (sv : List SVRow)
    (hsort : ((b0 :: rest).map Prod.fst).Pairwise (· < ·)) :
    stocksMerge b0 rest sv
      = alignOuter (b0 :: rest)
          (((groupSum sv).filter (fun p => b0.1 ≤ p.1)).filter
            (fun p => p.1 ≤ ((b0 :: rest).getLastD b0).1)) := by
  rw [stocksMerge_def]
  exact dedupKeepFirst_of_nodup
    ((alignOuter_keys_pairwise _ _ hsort
      (restricted_keys_pairwise sv b0.1 ((b0 :: rest).getLastD b0).1)).nodup)

theorem restricted_lookup (sv : List SVRow) (lo hi d : Nat) :
    List.lookup d (((groupSum sv).filter (fun p => lo ≤ p.1)).filter
        (fun p => p.1 ≤ hi))
      = if lo ≤ d ∧ d ≤ hi then List.lookup d (groupSum sv) else none := by
  rw [lookup_filter_key (fun k => decide (k ≤ hi)),
    lookup_filter_key (fun k => decide (lo ≤ k))]
  by_cases h1 : lo ≤ d
  · by_cases h2 : d ≤ hi
    · rw [if_pos (by simpa using h2), if_pos (by simpa using h1),
        if_pos ⟨h1, h2⟩]
    · rw [if_neg (by simpa using h2), if_neg (fun hc => h2 hc.2)]
  · by_cases h2 : d ≤ hi
    · rw [if_pos (by simpa using h2), if_neg (by simpa using h1),
        if_neg (fun hc => h1 hc.1)]
    · rw [if_neg (by simpa using h2), if_neg (fun hc => h2 hc.2)]

theorem stocksMerge_lookup {α : Type} (b0 : Nat × α) (rest : List (Nat × α))
    (sv : List SVRow)
    (hsort : ((b0 :: rest).map Prod.fst).Pairwise (· < ·)) (d : Nat) :
    List.lookup d (stocksMerge b0 rest sv)
      = if ((List.lookup d (b0 :: rest)).isSome
            || (List.lookup d (((groupSum sv).filter (fun p => b0.1 ≤ p.1)).filter
                (fun p => p.1 ≤ ((b0 :: rest).getLastD b0).1))).isSome) = true
        then some (List.lookup d (b0 :: rest),
          List.lookup d (((groupSum sv).filter (fun p => b0.1 ≤ p.1)).filter
            (fun p => p.1 ≤ ((b0 :: rest).getLastD b0).1)))
        else none := by
  rw [stocksMerge_eq b0 rest sv hsort]
  exact alignOuter_lookup _ _ d hsort
    (restricted_keys_pairwise sv b0.1 ((b0 :: rest).getLastD b0).1)

/-! ## Claim C1 -/

/-- C1 counterexample: price bars on days 1 and 3, a short-volume row on
    day 2 (inside the bar span, with no price bar).  The claim says a
    short-volume date with no price bar produces no merged row; the merge
    (pd.concat axis=1, an outer join) in fact produces the row
    (2, (none, some agg)) — retained with the price fields absent. -/
theorem claim_C1_counterexample :
    stocksMerge (1, (10 : Nat)) [(3, 30)] [⟨2, "A", 5, 0, 7⟩]
      = [(1, (some 10, none)), (2, (none, some ⟨5, 0, 7⟩)),
         (3, (some 30, none))] := by decide

/-- C1 (amended): the merge is an outer join restricted to the inclusive
    span of the fetched price-bar dates.  For chronologically sorted bars:
    every price-bar date keeps its row, with the short-volume fields being
    exactly the per-date aggregate when one exists and absent (none, not
    zero) otherwise (first conjunct); a short-volume date with no price bar
    is retained as a merged row with the price fields absent when it lies
    within [first bar date, last bar date], and is dropped (no merged row)
    exactly when it lies outside that span (second conjunct). -/
theorem claim_C1 {α : Type} (b0 : Nat × α) (rest : List (Nat × α))
    (sv : List SVRow)
    (hsort : ((b0 :: rest).map Prod.fst).Pairwise (· < ·)) :
    (∀ p ∈ b0 :: rest,
      List.lookup p.1 (stocksMerge b0 rest sv)
        = some (some p.2, List.lookup p.1 (groupSum sv))) ∧
    (∀ d a, List.lookup d (groupSum sv) = some a →
      d ∉ (b0 :: rest).map Prod.fst →
      ((b0.1 ≤ d ∧ d ≤ ((b0 :: rest).getLastD b0).1 →
        List.lookup d (stocksMerge b0 rest sv) = some (none, some a)) ∧
       (¬(b0.1 ≤ d ∧ d ≤ ((b0 :: rest).getLastD b0).1) →
        List.lookup d (stocksMerge b0 rest sv) = none ∧
        d ∉ (stocksMerge b0 rest sv).map Prod.fst))) := by
  constructor
  · intro p hp
    have hbar : List.lookup p.1 (b0 :: rest) = some p.2 :=
      lookup_of_mem_pairwise hsort hp
    have hspan : b0.1 ≤ p.1 ∧ p.1 ≤ ((b0 :: rest).getLastD b0).1 :=
      ⟨pairwise_head_le hsort p hp, pairwise_le_last rest b0 hsort p hp⟩
    rw [stocksMerge_lookup b0 rest sv hsort, restricted_lookup, if_pos hspan,
      hbar]
    simp
  · intro d a ha hnb
    have hbar : List.lookup d (b0 :: rest) = none :=
      (lookup_eq_none_iff_keys _ d).mpr hnb
    constructor
    · intro hspan
      rw [stocksMerge_lookup b0 rest sv hsort, restricted_lookup,
        if_pos hspan, ha, hbar]
      simp
    · intro hspan
      have hnone : List.lookup d (stocksMerge b0 rest sv) = none := by
        rw [stocksMerge_lookup b0 rest sv hsort, restricted_lookup,
          if_neg hspan, hbar]
        simp
      exact ⟨hnone, (lookup_eq_none_iff_keys _ d).mp hnone⟩

theorem claim_C1_witness :
    List.lookup 1 (stocksMerge (1, (10 : Nat)) [(3, 30)] [⟨2, "A", 5, 0, 7⟩])
      = some (some 10, List.lookup 1 (groupSum [⟨2, "A", 5, 0, 7⟩])) :=
  (claim_C1 (1, (10 : Nat)) [(3, 30)] [⟨2, "A", 5, 0, 7⟩] (by decide)).1
    (1, 10) (by decide)

/-! ## Claim C4 -/

/-- C4: the short-volume fields attached to a date in the merge are the
    sums of ShortVolume, ShortExemptVolume and TotalVolume over all of the
    symbol's short-volume rows (across all Market values) with that date.
    First conjunct: the groupby-sum characterization — the aggregate at
    date d is exactly the component-wise sum over the rows with date d
    (none when there is no such row).  Second conjunct: every merged row's
    short-volume component is exactly that aggregate. -/
theorem claim_C4 :
    (∀ (sv : List SVRow) (d : Nat),
      List.lookup d (groupSum sv)
        = if sv.filter (fun r => r.date == d) = [] then none
          else some ⟨((sv.filter (fun r => r.date == d)).map SVRow.sv).sum,
                     ((sv.filter (fun r => r.date == d)).map SVRow.sev).sum,
                     ((sv.filter (fun r => r.date == d)).map SVRow.tv).sum⟩) ∧
    (∀ (α : Type) (b0 : Nat × α) (rest : List (Nat × α)) (sv : List SVRow),
      ((b0 :: rest).map Prod.fst).Pairwise (· < ·) →
      ∀ d r, List.lookup d (stocksMerge b0 rest sv) = some r →
        r.2 = List.lookup d (groupSum sv)) := by
  constructor
  · exact groupSum_lookup
  · intro α b0 rest sv hsort d r hd
    have hmem := mem_keys_of_lookup_some hd
    rw [stocksMerge_eq b0 rest sv hsort] at hmem
    have hspan : b0.1 ≤ d ∧ d ≤ ((b0 :: rest).getLastD b0).1 := by
      rcases alignOuter_keys_subset _ _ d hmem with h | h
      · rcases List.mem_map.1 h with ⟨p, hp, rfl⟩
        exact ⟨pairwise_head_le hsort p hp, pairwise_le_last rest b0 hsort p hp⟩
      · rcases List.mem_map.1 h with ⟨p, hp, rfl⟩
        rw [List.mem_filter] at hp
        have hp2 := hp.2
        rw [List.mem_filter] at hp
        exact ⟨by simpa using hp.1.2, by simpa using hp2⟩
    rw [stocksMerge_lookup b0 rest sv hsort, restricted_lookup,
      if_pos hspan] at hd
    by_cases hcond : ((List.lookup d (b0 :: rest)).isSome
        || (List.lookup d (groupSum sv)).isSome) = true
    · rw [if_pos hcond] at hd
      have := Option.some.inj hd
      rw [← this]
    · rw [if_neg hcond] at hd
      exact absurd hd (by simp)

theorem claim_C4_witness :
    List.lookup 5 (groupSum [⟨5, "A", 100, 1, 200⟩, ⟨5, "B", 50, 2, 60⟩])
      = some ⟨150, 3, 260⟩ ∧
    ∀ r, List.lookup 5 (stocksMerge (5, (1 : Nat)) []
        [⟨5, "A", 100, 1, 200⟩, ⟨5, "B", 50, 2, 60⟩]) = some r →
      r.2 = List.lookup 5 (groupSum [⟨5, "A", 100, 1, 200⟩, ⟨5, "B", 50, 2, 60⟩]) :=
  ⟨(claim_C4.1 [⟨5, "A", 100, 1, 200⟩, ⟨5, "B", 50, 2, 60⟩] 5).trans (by decide),
   fun r => claim_C4.2 Nat (5, 1) [] _ (by decide) 5 r⟩

/-! ## Supporting lemmas: the multi-run store invariant -/

theorem sortedLt_iff : ∀ (l : List Nat), sortedLt l = true ↔ l.Pairwise (· < ·) := by
  intro l
  induction l with
  | nil => simp [sortedLt]
  | cons a t ih =>
    cases t with
    | nil => simp [sortedLt]
    | cons b t2 =>
      rw [show sortedLt (a :: b :: t2) = (decide (a < b) && sortedLt (b :: t2))
          from rfl,
        Bool.and_eq_true, decide_eq_true_eq, ih]
      constructor
      · rintro ⟨h1, h2⟩
        rw [List.pairwise_cons]
        refine ⟨?_, h2⟩
        intro k hk
        rcases List.mem_cons.1 hk with h3 | h3
        · omega
        · rw [List.pairwise_cons] at h2
          have := h2.1 k h3
          omega
      · intro h
        rw [List.pairwise_cons] at h
        exact ⟨h.1 b (by simp), h.2⟩

theorem stocksStep_nil_def {α : Type} (hol : Nat → Bool) (svEnd : Nat)
    (fetch : Fetch α) (svrows : List SVRow) :
    stocksStep hol svEnd ([] : List (Nat × (Option α × Option Agg))) fetch svrows
      = match fetch with
        | Fetch.fail => []
        | Fetch.ok [] => []
        | Fetch.ok (b :: bs) => stocksMerge b bs svrows := rfl

theorem stocksStep_cons_def {α : Type} (hol : Nat → Bool) (svEnd : Nat)
    (s0 : Nat × (Option α × Option Agg))
    (srest : List (Nat × (Option α × Option Agg)))
    (fetch : Fetch α) (svrows : List SVRow) :
    stocksStep hol svEnd (s0 :: srest) fetch svrows
      = if (trading_dates hol (((s0 :: srest).getLastD s0).1 + 1) svEnd).isEmpty
          = true
        then s0 :: srest
        else match fetch with
          | Fetch.fail => s0 :: srest
          | Fetch.ok [] => s0 :: srest
          | Fetch.ok (b :: bs) => (s0 :: srest) ++ stocksMerge b bs svrows := rfl

theorem stocksStep_cases {α : Type} (hol : Nat → Bool) (svEnd : Nat)
    (store : List (Nat × (Option α × Option Agg))) (fetch : Fetch α)
    (svrows : List SVRow) :
    stocksStep hol svEnd store fetch svrows = store ∨
    ∃ b bs, fetch = Fetch.ok (b :: bs) ∧
      stocksStep hol svEnd store fetch svrows = store ++ stocksMerge b bs svrows := by
  cases store with
  | nil =>
    rw [stocksStep_nil_def]
    cases fetch with
    | fail => exact Or.inl rfl
    | ok bars =>
      cases bars with
      | nil => exact Or.inl rfl
      | cons b bs =>
        exact Or.inr ⟨b, bs, rfl, by rw [List.nil_append]⟩
  | cons s0 srest =>
    rw [stocksStep_cons_def]
    by_cases hd : (trading_dates hol (((s0 :: srest).getLastD s0).1 + 1)
        svEnd).isEmpty = true
    · rw [if_pos hd]
      exact Or.inl rfl
    · rw [if_neg hd]
      cases fetch with
      | fail => exact Or.inl rfl
      | ok bars =>
        cases bars with
        | nil => exact Or.inl rfl
        | cons b bs => exact Or.inr ⟨b, bs, rfl, rfl⟩

theorem stocksMerge_keys_pairwise {α : Type} (b0 : Nat × α)
    (rest : List (Nat × α)) (sv : List SVRow)
    (hsort : ((b0 :: rest).map Prod.fst).Pairwise (· < ·)) :
    ((stocksMerge b0 rest sv).map Prod.fst).Pairwise (· < ·) := by
  rw [stocksMerge_eq b0 rest sv hsort]
  exact alignOuter_keys_pairwise _ _ hsort
    (restricted_keys_pairwise sv b0.1 ((b0 :: rest).getLastD b0).1)

theorem stocksMerge_keys_ge {α : Type} (b0 : Nat × α)
    (rest : List (Nat × α)) (sv : List SVRow)
    (hsort : ((b0 :: rest).map Prod.fst).Pairwise (· < ·)) :
    ∀ k ∈ (stocksMerge b0 rest sv).map Prod.fst, b0.1 ≤ k := by
  rw [stocksMerge_eq b0 rest sv hsort]
  intro k hk
  rcases alignOuter_keys_subset _ _ k hk with h | h
  · rcases List.mem_map.1 h with ⟨p, hp, rfl⟩
    exact pairwise_head_le hsort p hp
  · rcases List.mem_map.1 h with ⟨p, hp, rfl⟩
    rw [List.mem_filter] at hp
    have hp1 := hp.1
    rw [List.mem_filter] at hp1
    simpa using hp1.2

theorem stepRun_pairwise {α : Type} (hol : Nat → Bool)
    (store : List (Nat × (Option α × Option Agg))) (r : Run α)
    (hs : (store.map Prod.fst).Pairwise (· < ·))
    (hc : contractOK store r = true) :
    ((stepRun hol store r).map Prod.fst).Pairwise (· < ·) := by
  rcases stocksStep_cases hol r.2.2 store r.1 r.2.1 with h | ⟨b, bs, hf, h⟩
  · unfold stepRun
    rw [h]
    exact hs
  · unfold contractOK at hc
    simp only [hf] at hc
    rw [Bool.and_eq_true] at hc
    have hbars : (((b :: bs)).map Prod.fst).Pairwise (· < ·) :=
      (sortedLt_iff _).mp hc.1
    have hgt : ∀ p ∈ store, ∀ bb ∈ b :: bs, p.1 < bb.1 := by
      have h2 := hc.2
      rw [List.all_eq_true] at h2
      intro p hp bb hbb
      have h3 := h2 p hp
      rw [List.all_eq_true] at h3
      have := h3 bb hbb
      simpa using this
    unfold stepRun
    rw [h, List.map_append, List.pairwise_append]
    refine ⟨hs, stocksMerge_keys_pairwise b bs _ hbars, ?_⟩
    intro k1 hk1 k2 hk2
    rcases List.mem_map.1 hk1 with ⟨p, hp, rfl⟩
    have hk2ge := stocksMerge_keys_ge b bs _ hbars k2 hk2
    have := hgt p hp b (by simp)
    omega

theorem runsFold_pairwise {α : Type} (hol : Nat → Bool) :
    ∀ (runs : List (Run α)) (store : List (Nat × (Option α × Option Agg))),
      (store.map Prod.fst).Pairwise (· < ·) →
      validRuns hol store runs = true →
      ((runsFold hol store runs).map Prod.fst).Pairwise (· < ·) := by
  intro runs
  induction runs with
  | nil => intro store hs _; exact hs
  | cons r rs ih =>
    intro store hs hv
    have hv2 : contractOK store r = true
        ∧ validRuns hol (stepRun hol store r) rs = true := by
      rw [show validRuns hol store (r :: rs)
          = (contractOK store r && validRuns hol (stepRun hol store r) rs)
          from rfl, Bool.and_eq_true] at hv
      exact hv
    exact ih (stepRun hol store r) (stepRun_pairwise hol store r hs hv2.1) hv2.2

/-! ## Claim C5 -/

/-- C5: first conjunct — the duplicate-index removal of line 316 keeps,
    for every Date, exactly the first occurrence in encounter order: the
    result is a sublist of the merged rows, its dates are duplicate-free,
    and looking up any date in it gives exactly the first matching row of
    the input.  Second conjunct — for any starting store whose date column
    is strictly ascending (in particular the empty store) and any number
    of update runs in which the quotes provider honors the requested range
    (spec section 6: bars are strictly chronological and dated after every
    already-stored row, since the requested start is the stored last date
    plus one day), the store's set of Date values never acquires a repeat. -/
theorem claim_C5 :
    (∀ (β : Type) (rows : List (Nat × β)),
      (dedupKeepFirst rows).Sublist rows ∧
      ((dedupKeepFirst rows).map Prod.fst).Nodup ∧
      (∀ d, List.lookup d (dedupKeepFirst rows) = List.lookup d rows)) ∧
    (∀ (α : Type) (hol : Nat → Bool)
        (store : List (Nat × (Option α × Option Agg))) (runs : List (Run α)),
      (store.map Prod.fst).Pairwise (· < ·) →
      validRuns hol store runs = true →
      ((runsFold hol store runs).map Prod.fst).Nodup) := by
  constructor
  · intro β rows
    exact ⟨dedupKeepFirst_sublist rows, dedupKeepFirst_keys_nodup rows,
      dedupKeepFirst_lookup rows⟩
  · intro α hol store runs hs hv
    exact (runsFold_pairwise hol runs store hs hv).nodup

theorem claim_C5_witness :
    ((dedupKeepFirst [(2, (7 : Nat)), (2, 8), (3, 9)]).map Prod.fst).Nodup ∧
    ((runsFold (fun _ => false) ([] : List (Nat × (Option Nat × Option Agg)))
      [(Fetch.ok [(1, 10), (2, 20)], [⟨1, "A", 5, 0, 7⟩], 3),
       (Fetch.ok [(4, 40)], [], 5)]).map Prod.fst).Nodup :=
  ⟨(claim_C5.1 Nat [(2, 7), (2, 8), (3, 9)]).2.1,
   claim_C5.2 Nat (fun _ => false) []
     [(Fetch.ok [(1, 10), (2, 20)], [⟨1, "A", 5, 0, 7⟩], 3),
      (Fetch.ok [(4, 40)], [], 5)] (by simp) (by decide)⟩

end ScrapeStocks
